import Mathlib

/-!
Shallow embedding of the torchwood tlog client (`tlogclient.go`): the entry
streaming engine `Client.Entries`, the edge memory cache, the permanent
on-disk cache, the tile fetcher retry loop, and the sumdb cut preset.
Machine integers (Go `int`, `int64`) are modelled as `Int`/`Nat`; every
quantity touched by the claims stays inside `[0, 2^63)`, where Go arithmetic
agrees with the mathematical integers.
-/

namespace Torchwood


/-! ## Definitions -/

/-- Modelled from the spec: the log-wide tile height constant (`TileHeight` in
the repository, defined outside the provided source file); the spec fixes
`H = 8`. -/
def TileHeight : Nat := 8

/-- Modelled from the spec: the tile width `2^H = 256` (`TileWidth` in the
repository, defined outside the provided source file). -/
def TileWidth : Nat := 2 ^ TileHeight

/-- Raw bytes (tile contents, entries), one `Nat` per byte. -/
abbrev ByteStr := List Nat

/-- A `tlog.Hash` value, abstracted: the client only compares hashes for
equality. -/
abbrev Hash := Nat

/-- A tile descriptor `tlog.Tile`: height `H`, level `L` (`-1` for data
tiles), tile index `N` within the level, and width `W`. -/
structure Tile where
  H : Int
  L : Int
  N : Int
  W : Int
deriving DecidableEq, Repr

/-- The zero `tlog.Tile{}` value. -/
def zeroTile : Tile := { H := 0, L := 0, N := 0, W := 0 }

/-- Level-0 stored hash index of leaf `n` in the tiled-log numbering: the
external collaborator `tlog.StoredHashIndex(0, n)`, which sums `n >> k` over
all `k`. -/
def storedHashIndex0 (n : Nat) : Nat :=
  if h : n = 0 then 0 else n + storedHashIndex0 (n / 2)
decreasing_by exact Nat.div_lt_self (Nat.pos_of_ne_zero h) (by decide)

/-- A cut function: splits the next entry off a data tile, returning
`(entry, recordHash, rest)` or an error. -/
abbrev CutFn := ByteStr → Except String (ByteStr × Hash × ByteStr)

/-- Errors stashed by `Client.Entries` in `c.err`. Each constructor carries
the loop position at which the failure occurred (the first entry index of the
failed batch for batch-level failures, the entry index for in-tile failures,
the tile end for the leftover check), so that the no-yield-past-failure
property can be stated; the Go errors carry the same information in their
message text. `outOfFuel` is an artifact of the embedding: the Go `for` loop
has no fuel, and sufficient fuel makes this constructor unreachable. -/
inductive EntriesError where
  | outOfFuel
  | tileRead (base : Nat) (msg : String)
  | hashRead (base : Nat) (msg : String)
  | endOfTileData (i : Nat) (tileN : Nat)
  | cutEntry (i : Nat) (msg : String)
  | hashMismatch (i : Nat)
  | leftoverData (i : Nat) (tileN : Nat)
deriving DecidableEq, Repr

/-- The entry index before which all yields of a failed run must lie
(`outOfFuel` is excluded separately: it cannot occur with sufficient fuel). -/
def failIndex : EntriesError → Nat
  | .outOfFuel => 0
  | .tileRead base _ => base
  | .hashRead base _ => base
  | .endOfTileData i _ => i
  | .cutEntry i _ => i
  | .hashMismatch i => i
  | .leftoverData i _ => i

/-- The environment of one `Client.Entries` run: the tile source
(`c.tr.ReadTiles`), the auth-path hash reader, and the cut function.
The hash reader is modelled from the spec: `TileHashReaderWithContext` is
repository code outside the provided source file, and §4.2 of the spec
specifies it only as a contract (all tile I/O through the tile source, errors
surface, hashes returned in input order). -/
structure EntriesEnv where
  readTiles : List Tile → Except String (List ByteStr)
  readHashes : List Nat → Except String (List Hash)
  cut : CutFn

/-- The observable outcome of one `Client.Entries` run with a consumer that
accepts every entry: the yielded `(index, entry)` pairs, every argument the
cut function was invoked with, and the stashed error (`none` on success). -/
structure RunResult where
  yields : List (Nat × ByteStr)
  cutCalls : List ByteStr
  err : Option EntriesError
deriving DecidableEq, Repr

/-- The per-tile inner loop of `Client.Entries` (lines 170-206): for each
index `i` in `[i, i + count)` require nonempty data, cut an entry, check its
record hash against `hashes[i - base]`, and yield it when `start ≤ i`; after
the loop require the remaining data to be empty. Returns the yields, the cut
arguments, and the failure if any. -/
def cutTileLoop (cut : CutFn) (hashes : List Hash) (base start tileN : Nat) :
    Nat → Nat → ByteStr → List (Nat × ByteStr) × List ByteStr × Option EntriesError
  | i, 0, data =>
      if data = [] then ([], [], none) else ([], [], some (.leftoverData i tileN))
  | i, count + 1, data =>
      if data = [] then ([], [], some (.endOfTileData i tileN))
      else
        match cut data with
        | .error e => ([], [data], some (.cutEntry i e))
        | .ok (entry, rh, rest) =>
          if rh ≠ hashes.getD (i - base) 0 then ([], [data], some (.hashMismatch i))
          else
            let r := cutTileLoop cut hashes base start tileN (i + 1) count rest
            ((if start ≤ i then (i, entry) :: r.1 else r.1), data :: r.2.1, r.2.2)

/-- The loop over the tiles of one batch (lines 166-208), threading the
mutable `start` (set to each tile's end after the tile is processed).
Returns the yields, cut arguments, failure, and the final value of `start`. -/
def processTiles (cut : CutFn) (hashes : List Hash) (base : Nat) :
    List (Tile × ByteStr) → Nat →
    List (Nat × ByteStr) × List ByteStr × Option EntriesError × Nat
  | [], start => ([], [], none, start)
  | (t, d) :: rest, start =>
      let tileStart := t.N.toNat * TileWidth
      let count := t.W.toNat
      let r := cutTileLoop cut hashes base start t.N.toNat tileStart count d
      match r.2.2 with
      | some e => (r.1, r.2.1, some e, start)
      | none =>
        let q := processTiles cut hashes base rest (tileStart + count)
        (r.1 ++ q.1, r.2.1 ++ q.2.1, q.2.2.1, q.2.2.2)

/-- The data-tile descriptor batch construction of `Client.Entries`
(lines 131-143): up to `rem` (initially 50) tiles starting at `tileStart`,
stopping at `top`. -/
def buildTilesGo (top : Nat) : Nat → Nat → List Tile
  | _, 0 => []
  | tileStart, rem + 1 =>
      if top ≤ tileStart then []
      else
        let tileEnd := min (tileStart + TileWidth) top
        { H := (TileHeight : Int), L := -1, N := (tileStart / TileWidth : Nat),
          W := ((tileEnd - tileStart : Nat) : Int) } ::
          buildTilesGo top (tileStart + TileWidth) rem

/-- The tile batch fetched by one iteration of the `Client.Entries` loop. -/
def buildTiles (base top : Nat) : List Tile := buildTilesGo top base 50

/-- The stored-hash indexes requested for a batch (lines 154-159): for each
tile `t` and `i < t.W`, `tlog.StoredHashIndex(0, t.N*TileWidth + i)`. -/
def batchIndexes : List Tile → List Nat
  | [] => []
  | t :: rest =>
      ((List.range t.W.toNat).map fun i => storedHashIndex0 (t.N.toNat * TileWidth + i)) ++
        batchIndexes rest

/-- One iteration of the `Client.Entries` batching loop (lines 114-215):
compute `base` and `top`, enumerate the batch's data tiles, read them, read
the authenticated hashes, process the tiles, and either stop (returning the
batch result) or continue with the advanced `start`. `SaveTiles` (line 210)
is advisory and unobservable here. Returns the batch result and `some next`
when the loop continues. If the tile source returns fewer byte strings than
tiles, the zip processes the common prefix (the Go code would panic indexing
`tdata`). -/
def entriesBatch (env : EntriesEnv) (treeN start : Nat) : RunResult × Option Nat :=
  let base := start / TileWidth * TileWidth
  let top0 := treeN / TileWidth * TileWidth
  let top := if top0 = base then treeN else top0
  let tiles := buildTiles base top
  if tiles = [] then (⟨[], [], none⟩, none)
  else
    match env.readTiles tiles with
    | .error e => (⟨[], [], some (.tileRead base e)⟩, none)
    | .ok tdata =>
      match env.readHashes (batchIndexes tiles) with
      | .error e => (⟨[], [], some (.hashRead base e)⟩, none)
      | .ok hashes =>
        let p := processTiles env.cut hashes base (tiles.zip tdata) start
        match p.2.2.1 with
        | some e => (⟨p.1, p.2.1, some e⟩, none)
        | none =>
          if p.2.2.2 = top then (⟨p.1, p.2.1, none⟩, none)
          else (⟨p.1, p.2.1, none⟩, some p.2.2.2)

/-- The outer batching loop of `Client.Entries`, with the consumer accepting
every entry and the context never cancelled. Fuel is an artifact of the
embedding: each batch strictly advances `start`, so fuel `treeN + 1` (used by
`entriesRun`) is never exhausted when `start ≤ treeN` and the tile source
returns as many byte strings as tiles. -/
def entriesGo (env : EntriesEnv) (treeN : Nat) : Nat → Nat → RunResult
  | _, 0 => ⟨[], [], some .outOfFuel⟩
  | start, fuel + 1 =>
      match entriesBatch env treeN start with
      | (r, none) => r
      | (r, some next) =>
        let q := entriesGo env treeN next fuel
        ⟨r.yields ++ q.yields, r.cutCalls ++ q.cutCalls, q.err⟩

/-- One full `Client.Entries` run over the collecting consumer. -/
def entriesRun (env : EntriesEnv) (treeN start : Nat) : RunResult :=
  entriesGo env treeN start (treeN + 1)

/-- The bound below which indices are emitted, written from the spec's words:
the largest multiple of the tile width that is at most `treeN`, unless
`start` lies at or beyond that bound, in which case `treeN` itself. -/
def emitEnd (treeN start : Nat) : Nat :=
  if treeN / TileWidth * TileWidth ≤ start then treeN
  else treeN / TileWidth * TileWidth

/-- The mutable state of a `Client`: the stashed error read by `Client.Err`. -/
structure ClientState where
  err : Option EntriesError
deriving DecidableEq, Repr

/-- A call to `Client.Entries` followed by a full drain of the iterator:
line 109 resets `c.err` to `nil` at call time, then iteration stashes the
run's error. -/
def clientEntriesCall (_c : ClientState) (env : EntriesEnv) (treeN start : Nat) :
    List (Nat × ByteStr) × ClientState :=
  let c0 : ClientState := { err := none }
  let r := entriesRun env treeN start
  (r.yields, { c0 with err := r.err })

/-- `Client.Err` (lines 91-93). -/
def clientErr (c : ClientState) : Option EntriesError :=
  c.err

/-! ### The `WithSumDBEntries` cut preset (lines 76-88) -/

/-- Position of the first occurrence of the (nonempty) pattern `pat` as a
contiguous run inside `s`, as computed by `bytes.Index`. -/
def bytesIndex (pat : ByteStr) : ByteStr → Option Nat
  | [] => none
  | b :: rest =>
    if pat.isPrefixOf (b :: rest) then some 0
    else (bytesIndex pat rest).map (· + 1)

/-- The cut function installed by `WithSumDBEntries`, with the external
record hash `tlog.RecordHash` abstracted as a parameter: split at the first
`"\n\n"` (bytes 10, 10), adding back one newline; with no separator the whole
tile is the entry and the rest is nil. -/
def withSumDBEntriesCut (recordHash : ByteStr → Hash) (tile : ByteStr) :
    Except String (ByteStr × Hash × ByteStr) :=
  match bytesIndex [10, 10] tile with
  | some idx =>
      .ok (tile.take (idx + 1), recordHash (tile.take (idx + 1)), tile.drop (idx + 2))
  | none => .ok (tile, recordHash tile, [])

/-- Helper predicate: `[10, 10]` (the separator `"\n\n"`) occurs in `s` at
position `j`. -/
def sepAt (s : ByteStr) (j : Nat) : Prop :=
  List.IsPrefix [10, 10] (s.drop j)

/-- Concrete environment: every leaf byte is 0, the cut function takes one
byte, every hash is 0. -/
def exTileData (t : Tile) : ByteStr := List.replicate t.W.toNat 0

/-- Concrete reliable environment used by witnesses. -/
def exEnvGood : EntriesEnv :=
  { readTiles := fun ts => .ok (ts.map exTileData)
    readHashes := fun l => .ok (l.map fun _ => 0)
    cut := fun d => .ok ([d.headD 0], 0, d.tail) }

/-- Concrete environment whose tile source always fails. -/
def exEnvBad : EntriesEnv :=
  { exEnvGood with readTiles := fun _ => .error "boom" }

/-! ### PermanentCache.SaveTiles (lines 570-594) -/

/-- Environment of a `PermanentCache`: the pluggable tile-path function
(`TilePath` by default — repository code outside the provided source,
abstracted per the spec) and fault injection for `os.MkdirAll` and
`os.WriteFile`, keyed by the tile's path (`MkdirAll` runs on the parent
directory of that path). -/
structure PermEnv where
  tilePath : Tile → String
  mkdirFails : String → Bool
  writeFails : String → Bool

/-- The cache directory contents: tile path to file bytes. -/
abbrev FS := String → Option ByteStr

/-- Create or overwrite one file. -/
def fsWrite (fs : FS) (p : String) (d : ByteStr) : FS :=
  fun q => if q = p then some d else fs q

/-- The loop of `PermanentCache.SaveTiles` (lines 571-592): skip wrong
heights and partial tiles, skip paths that already exist (`os.Stat`
succeeds), `return` from the whole call on a directory-creation failure,
log and continue on a write failure. The Bool records whether the loop
aborted early. -/
def permSaveLoop (env : PermEnv) : FS → List (Tile × ByteStr) → FS × Bool
  | fs, [] => (fs, false)
  | fs, (t, d) :: rest =>
    if t.H ≠ (TileHeight : Int) then permSaveLoop env fs rest
    else if t.W ≠ (TileWidth : Int) then permSaveLoop env fs rest
    else if (fs (env.tilePath t)).isSome then permSaveLoop env fs rest
    else if env.mkdirFails (env.tilePath t) then (fs, true)
    else if env.writeFails (env.tilePath t) then permSaveLoop env fs rest
    else permSaveLoop env (fsWrite fs (env.tilePath t) d) rest

/-- `PermanentCache.SaveTiles`: run the loop, then forward the complete
original descriptor and data lists to the inner source's `SaveTiles`
(line 593) — unless the loop aborted, whose `return` skips the forwarding.
Returns the updated directory and the calls forwarded to the inner source. -/
def permSaveTiles (env : PermEnv) (fs : FS) (tiles : List Tile)
    (data : List ByteStr) : FS × List (List Tile × List ByteStr) :=
  let r := permSaveLoop env fs (tiles.zip data)
  (r.1, if r.2 then [] else [(tiles, data)])

/-- A sequence of `SaveTiles` calls against the same cache directory. -/
def permSaveSeq (env : PermEnv) : FS → List (List Tile × List ByteStr) → FS
  | fs, [] => fs
  | fs, c :: rest => permSaveSeq env (permSaveTiles env fs c.1 c.2).1 rest

/-- Concrete full data tile at index 0. -/
def exFullTile : Tile := { H := 8, L := -1, N := 0, W := 256 }

/-- Concrete permanent cache environment with reliable filesystem. -/
def exPermEnv : PermEnv :=
  { tilePath := fun t => toString t.N
    mkdirFails := fun _ => false
    writeFails := fun _ => false }

/-- Concrete permanent cache environment whose directory creation fails. -/
def exPermEnvMkdirFail : PermEnv :=
  { tilePath := fun _ => "p"
    mkdirFails := fun _ => true
    writeFails := fun _ => false }

/-! ### edgeMemoryCache.SaveTiles (lines 260-300) -/

/-- A `tileWithData` pair. -/
structure TileWithData where
  tile : Tile
  data : ByteStr
deriving DecidableEq, Repr

/-- The zero `tileWithData{}` value (slot 1 right after a level's first
save). -/
def zeroTWD : TileWithData := { tile := zeroTile, data := [] }

/-- The per-level two-slot map `c.t` of the edge memory cache. -/
abbrev EdgeMap := Int → Option (TileWithData × TileWithData)

/-- Update one level of the edge map. -/
def edgeUpdate (m : EdgeMap) (l : Int) (v : TileWithData × TileWithData) :
    EdgeMap :=
  fun q => if q = l then some v else m q

/-- `tileLess` (lines 288-300), minus the cross-level panic (its callers
only compare descriptors stored under the same level key): the zero tile is
less than every tile, nothing else is less than the zero tile, and non-zero
tiles compare by `(N, W)` lexicographically. -/
def tileLess (a b : Tile) : Bool :=
  if a = zeroTile then true
  else if b = zeroTile then false
  else decide (a.N < b.N) || (a.N == b.N && decide (a.W < b.W))

/-- The slot update of `edgeMemoryCache.SaveTiles` (lines 273-285) for a
single saved tile: first save occupies slot 0, a duplicate changes nothing,
otherwise the slot that is `tileLess` than both the new tile and the other
slot is displaced. -/
def edgeSaveStep (m : EdgeMap) (t : Tile) (d : ByteStr) : EdgeMap :=
  match m t.L with
  | none => edgeUpdate m t.L (⟨t, d⟩, zeroTWD)
  | some td =>
    if td.1.tile = t ∨ td.2.tile = t then m
    else if tileLess td.1.tile t && tileLess td.1.tile td.2.tile then
      edgeUpdate m t.L (⟨t, d⟩, td.2)
    else if tileLess td.2.tile t && tileLess td.2.tile td.1.tile then
      edgeUpdate m t.L (td.1, ⟨t, d⟩)
    else m

/-- `edgeMemoryCache.SaveTiles` (lines 260-286): forward the tiles that are
not already cached to the inner source, then update each level's slots in
order. Returns the updated map and the forwarded tiles. -/
def edgeSaveTiles (m : EdgeMap) (tds : List (Tile × ByteStr)) :
    EdgeMap × List (Tile × ByteStr) :=
  let fwd := tds.filter fun td =>
    match m td.1.L with
    | none => true
    | some s => !(s.1.tile == td.1 || s.2.tile == td.1)
  (tds.foldl (fun acc td => edgeSaveStep acc td.1 td.2) m, fwd)

/-- The spec's displacement order, written from its words: the zero
descriptor is less than any descriptor; otherwise compare by `(N, W)`
lexicographically. -/
def specTileLess (a b : Tile) : Prop :=
  a = zeroTile ∨ (b ≠ zeroTile ∧ (a.N < b.N ∨ (a.N = b.N ∧ a.W < b.W)))

/-- Slot 0 of every present level is a non-zero descriptor. -/
def edgeInv (m : EdgeMap) : Prop :=
  ∀ l s, m l = some s → s.1.tile ≠ zeroTile

/-- Concrete hash tile at level 0, index 1. -/
def exTileA : Tile := { H := 8, L := 0, N := 1, W := 256 }

/-- Concrete hash tile at level 0, index 2. -/
def exTileB : Tile := { H := 8, L := 0, N := 2, W := 256 }

/-! ### TileFetcher.ReadTiles retry loop (lines 394-473) -/

/-- Outcome of reading the body of a 200 response (`io.ReadAll`). -/
inductive BodyRes where
  | ok (body : ByteStr)
  | ioErr (msg : String)
deriving DecidableEq, Repr

/-- Outcome of one HTTP attempt: a transport error from `hc.Do`, or a
response with its status code, its `Retry-After` header value (the empty
string when absent, as returned by `Header.Get`), and a body outcome (only
consulted on status 200). -/
inductive AttemptRes where
  | doFail (msg : String)
  | resp (status : Int) (retryAfter : String) (body : BodyRes)
deriving DecidableEq, Repr

/-- One error collected by the retry loop's `errors.Join`. -/
inductive RetryErr where
  | doFail (msg : String)
  | statusCode (status : Int)
  | bodyErr (msg : String)
deriving DecidableEq, Repr

/-- Final outcome of the per-tile fetch: the body, an immediate failure on a
non-retryable status at a given attempt, or exhaustion of all attempts. -/
inductive FetchResult where
  | body (b : ByteStr)
  | badStatus (attempt : Nat) (status : Int)
  | exhausted (errs : List RetryErr)
deriving DecidableEq, Repr

/-- A sleep between attempts: the default backoff of a number of seconds, or
sleeping until an absolute instant (from `Retry-After`). -/
inductive Pause where
  | backoff (seconds : Nat)
  | untilInstant (instant : Int)
deriving DecidableEq, Repr

/-- Environment of one tile request: the outcome of each (0-based) attempt,
the integer parser `strconv.Atoi`, the HTTP date parser `http.ParseTime`
(returning an instant), and the current instant `time.Now`. Instants are
opaque integers; the zero `time.Time` is represented by `none`. -/
structure FetchEnv where
  attempt : Nat → AttemptRes
  atoi : String → Option Int
  httpDate : String → Option Int
  now : Int

/-- `parseRetryAfter` (lines 460-473): an empty header is the zero time;
otherwise try integer seconds added to now, then an HTTP date, else zero. -/
def parseRetryAfter (env : FetchEnv) (header : String) : Option Int :=
  if header = "" then none
  else
    match env.atoi header with
    | some n => some (env.now + n)
    | none => env.httpDate header

/-- The retry loop of `TileFetcher.ReadTiles` for one tile (lines 410-451):
`for j := range 5`, pausing before every attempt but the first — until the
pending `retryAfter` instant when the previous attempt's 429/5xx response
supplied one (the instant is then reset), else `5^(j-1)` seconds. Retries on
transport errors, 429, 5xx, and body-read errors; returns at once on any
other non-200 status or on success. Returns the outcome, the pauses taken in
order, and the number of attempts performed. -/
def fetchGo (env : FetchEnv) : Nat → Nat → Option Int → List RetryErr →
    FetchResult × List Pause × Nat
  | 0, _, _, errs => (.exhausted errs, [], 0)
  | rem + 1, j, ra, errs =>
    let pauses : List Pause :=
      if j = 0 then []
      else
        match ra with
        | some instant => [.untilInstant instant]
        | none => [.backoff (5 ^ (j - 1))]
    match env.attempt j with
    | .doFail m =>
      let r := fetchGo env rem (j + 1) none (errs ++ [.doFail m])
      (r.1, pauses ++ r.2.1, r.2.2 + 1)
    | .resp st hdr body =>
      if st = 429 ∨ 500 ≤ st then
        let r := fetchGo env rem (j + 1) (parseRetryAfter env hdr)
          (errs ++ [.statusCode st])
        (r.1, pauses ++ r.2.1, r.2.2 + 1)
      else if st ≠ 200 then (.badStatus j st, pauses, 1)
      else
        match body with
        | .ioErr m =>
          let r := fetchGo env rem (j + 1) none (errs ++ [.bodyErr m])
          (r.1, pauses ++ r.2.1, r.2.2 + 1)
        | .ok b => (.body b, pauses, 1)

/-- One tile request: up to 5 attempts. -/
def fetchTile (env : FetchEnv) : FetchResult × List Pause × Nat :=
  fetchGo env 5 0 none []

/-- An attempt after which the loop retries: a transport error, a 429 or 5xx
response, or a body-read error on a 200 response. -/
def retryableAttempt : AttemptRes → Prop
  | .doFail _ => True
  | .resp st _ b => st = 429 ∨ 500 ≤ st ∨ (st = 200 ∧ ∃ m, b = .ioErr m)

/-- The pending retry instant produced by an attempt: a 429/5xx response's
parsed `Retry-After`, nothing otherwise. -/
def raOf (env : FetchEnv) : AttemptRes → Option Int
  | .resp st hdr _ => if st = 429 ∨ 500 ≤ st then parseRetryAfter env hdr else none
  | _ => none

/-- The pause the code takes before attempt `k + 1` (0-based), determined by
attempt `k`: until the instant of a parseable `Retry-After` on a 429/5xx
response, else the default `5^k`-second backoff. -/
def expectedPause (env : FetchEnv) (prev : AttemptRes) (k : Nat) : Pause :=
  match raOf env prev with
  | some instant => .untilInstant instant
  | none => .backoff (5 ^ k)

/-- Concrete fetch environment: a 503 on the first attempt, success on the
second; no Retry-After anywhere. -/
def exFetchEnvRetry : FetchEnv :=
  { attempt := fun j => if j = 0 then .resp 503 "" (.ok []) else .resp 200 "" (.ok [9])
    atoi := fun _ => none
    httpDate := fun _ => none
    now := 0 }

/-- Concrete fetch environment: a 429 carrying `Retry-After: 3` on the first
attempt, a transport error on the second, success on the third. -/
def exFetchEnvRA : FetchEnv :=
  { attempt := fun j =>
      if j = 0 then .resp 429 "3" (.ok [])
      else if j = 1 then .doFail "net"
      else .resp 200 "" (.ok [9])
    atoi := fun s => if s = "3" then some 3 else none
    httpDate := fun _ => none
    now := 100 }


/-! ## Theorems -/

lemma bytesIndex_some (pat : ByteStr) :
    ∀ (s : ByteStr) (i : Nat), bytesIndex pat s = some i →
      List.IsPrefix pat (s.drop i) ∧ ∀ j, j < i → ¬ List.IsPrefix pat (s.drop j) := by
  intro s
  induction s with
  | nil => intro i h; simp [bytesIndex] at h
  | cons b rest ih =>
    intro i h
    simp only [bytesIndex] at h
    by_cases hp : pat.isPrefixOf (b :: rest)
    · rw [if_pos hp] at h
      cases h
      exact ⟨List.isPrefixOf_iff_prefix.mp hp, fun j hj => absurd hj (Nat.not_lt_zero j)⟩
    · rw [if_neg hp] at h
      cases hbi : bytesIndex pat rest with
      | none => rw [hbi] at h; simp at h
      | some k =>
        rw [hbi] at h
        simp only [Option.map_some'] at h
        cases h
        obtain ⟨h1, h2⟩ := ih k hbi
        refine ⟨by simpa using h1, ?_⟩
        intro j hj
        cases j with
        | zero =>
          simpa using fun hpre => hp (List.isPrefixOf_iff_prefix.mpr hpre)
        | succ j =>
          have : j < k := by omega
          simpa using h2 j this

lemma bytesIndex_none (pat : ByteStr) (hpat : pat ≠ []) :
    ∀ (s : ByteStr), bytesIndex pat s = none →
      ∀ j, ¬ List.IsPrefix pat (s.drop j) := by
  intro s
  induction s with
  | nil =>
    intro _ j hpre
    rw [List.drop_nil] at hpre
    exact hpat (List.prefix_nil.mp hpre)
  | cons b rest ih =>
    intro h j hpre
    simp only [bytesIndex] at h
    by_cases hp : pat.isPrefixOf (b :: rest)
    · rw [if_pos hp] at h; simp at h
    · rw [if_neg hp] at h
      cases j with
      | zero => exact hp (List.isPrefixOf_iff_prefix.mpr (by simpa using hpre))
      | succ j =>
        cases hbi : bytesIndex pat rest with
        | none => exact ih hbi j (by simpa using hpre)
        | some k => rw [hbi] at h; simp at h

lemma take_succ_of_prefix {s : ByteStr} {i : Nat}
    (h : List.IsPrefix [10, 10] (s.drop i)) :
    s.take (i + 1) = s.take i ++ [10] := by
  obtain ⟨t, ht⟩ := h
  rw [List.take_add]
  congr 1
  rw [← ht]
  rfl

/-- C9: on every tile, the `WithSumDBEntries` cut returns: when the separator
`"\n\n"` first occurs at `idx`, the entry is everything before the separator
plus one trailing newline, the rest starts after the separator, and the
record hash is the record hash of the entry; with no separator, the whole
tile is the entry with empty rest; and it never returns an error. -/
theorem withSumDBEntries_spec (recordHash : ByteStr → Hash) (tile : ByteStr) :
    (∀ idx, bytesIndex [10, 10] tile = some idx →
      (sepAt tile idx ∧ (∀ j, j < idx → ¬ sepAt tile j)) ∧
      withSumDBEntriesCut recordHash tile =
        .ok (tile.take idx ++ [10], recordHash (tile.take idx ++ [10]),
          tile.drop (idx + 2))) ∧
    (bytesIndex [10, 10] tile = none →
      (∀ j, ¬ sepAt tile j) ∧
      withSumDBEntriesCut recordHash tile = .ok (tile, recordHash tile, [])) ∧
    (∃ out, withSumDBEntriesCut recordHash tile = .ok out) := by
  refine ⟨?_, ?_, ?_⟩
  · intro idx h
    obtain ⟨h1, h2⟩ := bytesIndex_some [10, 10] tile idx h
    have htake := take_succ_of_prefix h1
    refine ⟨⟨h1, h2⟩, ?_⟩
    simp only [withSumDBEntriesCut, h]
    rw [htake]
  · intro h
    refine ⟨bytesIndex_none [10, 10] (by simp) tile h, ?_⟩
    rw [withSumDBEntriesCut, h]
  · rw [withSumDBEntriesCut]
    cases bytesIndex [10, 10] tile <;> exact ⟨_, rfl⟩

/-- Witness for C9: a concrete tile `"A\n\nB"` is split into entry `"A\n"`,
rest `"B"`, and a tile without separator is returned whole. -/
theorem withSumDBEntries_spec_witness :
    withSumDBEntriesCut (fun b => b.length) [65, 10, 10, 66] =
      .ok ([65, 10], 2, [66]) ∧
    withSumDBEntriesCut (fun b => b.length) [65, 66] = .ok ([65, 66], 2, []) := by
  constructor
  · have h := (withSumDBEntries_spec (fun b => b.length) [65, 10, 10, 66]).1 1 (by decide)
    exact h.2
  · have h := (withSumDBEntries_spec (fun b => b.length) [65, 66]).2.1 (by decide)
    exact h.2

/-! ### C10: the stashed error is reset on every `Entries` call -/

/-- C10: a call to `Client.Entries` resets the stashed error before
iterating, so after a second call `Client.Err` reports only that call's
outcome — `none` after a failure-free iteration even if an earlier call
failed. -/
theorem entries_resets_err (c : ClientState) (env1 env2 : EntriesEnv)
    (n1 s1 n2 s2 : Nat) :
    clientErr (clientEntriesCall (clientEntriesCall c env1 n1 s1).2 env2 n2 s2).2 =
      (entriesRun env2 n2 s2).err ∧
    ((entriesRun env2 n2 s2).err = none →
      clientErr (clientEntriesCall (clientEntriesCall c env1 n1 s1).2 env2 n2 s2).2 =
        none) := by
  exact ⟨rfl, fun h => h⟩

/-- Witness for C10: a failing call (tile source error) followed by a
failure-free call leaves `Client.Err` at `none`. -/
theorem entries_resets_err_witness :
    clientErr (clientEntriesCall (clientEntriesCall ⟨none⟩ exEnvBad 1 0).2
      exEnvGood 1 0).2 = none ∧
    clientErr (clientEntriesCall ⟨none⟩ exEnvBad 1 0).2 ≠ none := by
  constructor
  · exact (entries_resets_err ⟨none⟩ exEnvBad exEnvGood 1 0 1 0).2 (by rfl)
  · decide

/-! ### C8: the cut function is never called on an empty tile -/

lemma cutTileLoop_cutCalls_ne_nil (cut : CutFn) (hashes : List Hash)
    (base start tileN : Nat) :
    ∀ (count i : Nat) (data : ByteStr),
      ∀ d ∈ (cutTileLoop cut hashes base start tileN i count data).2.1, d ≠ [] := by
  intro count
  induction count with
  | zero =>
    intro i data d hd
    simp only [cutTileLoop] at hd
    split at hd <;> simp at hd
  | succ n ih =>
    intro i data d hd
    simp only [cutTileLoop] at hd
    by_cases hdat : data = []
    · rw [if_pos hdat] at hd; simp at hd
    · rw [if_neg hdat] at hd
      cases hc : cut data with
      | error e => rw [hc] at hd; simp at hd; simpa [hd] using hdat
      | ok out =>
        obtain ⟨entry, rh, rest⟩ := out
        rw [hc] at hd
        simp only at hd
        split at hd
        · simp at hd; simpa [hd] using hdat
        · simp only [List.mem_cons] at hd
          rcases hd with hd | hd
          · simpa [hd] using hdat
          · exact ih (i + 1) rest d hd

lemma processTiles_cutCalls_ne_nil (cut : CutFn) (hashes : List Hash) (base : Nat) :
    ∀ (tds : List (Tile × ByteStr)) (start : Nat),
      ∀ d ∈ (processTiles cut hashes base tds start).2.1, d ≠ [] := by
  intro tds
  induction tds with
  | nil => intro start d hd; simp [processTiles] at hd
  | cons td rest ih =>
    intro start d hd
    obtain ⟨t, data⟩ := td
    simp only [processTiles] at hd
    cases hr : (cutTileLoop cut hashes base start (t.N.toNat)
        (t.N.toNat * TileWidth) (t.W.toNat) data).2.2 with
    | some e =>
      rw [hr] at hd
      simp only at hd
      exact cutTileLoop_cutCalls_ne_nil cut hashes base start t.N.toNat
        (t.W.toNat) (t.N.toNat * TileWidth) data d hd
    | none =>
      rw [hr] at hd
      simp only [List.mem_append] at hd
      rcases hd with hd | hd
      · exact cutTileLoop_cutCalls_ne_nil cut hashes base start t.N.toNat
          (t.W.toNat) (t.N.toNat * TileWidth) data d hd
      · exact ih _ d hd

lemma entriesBatch_cutCalls_ne_nil (env : EntriesEnv) (treeN start : Nat) :
    ∀ d ∈ (entriesBatch env treeN start).1.cutCalls, d ≠ [] := by
  intro d hd
  simp only [entriesBatch] at hd
  generalize (if treeN / TileWidth * TileWidth = start / TileWidth * TileWidth
    then treeN else treeN / TileWidth * TileWidth) = top at hd
  generalize buildTiles (start / TileWidth * TileWidth) top = tiles at hd
  split at hd
  · simp at hd
  · split at hd
    · simp at hd
    · split at hd
      · simp at hd
      · split at hd
        · exact processTiles_cutCalls_ne_nil _ _ _ _ _ d hd
        · split at hd <;> exact processTiles_cutCalls_ne_nil _ _ _ _ _ d hd

lemma entriesGo_cutCalls_ne_nil (env : EntriesEnv) (treeN : Nat) :
    ∀ (fuel start : Nat), ∀ d ∈ (entriesGo env treeN start fuel).cutCalls, d ≠ [] := by
  intro fuel
  induction fuel with
  | zero => intro start d hd; simp [entriesGo] at hd
  | succ n ih =>
    intro start d hd
    rw [entriesGo] at hd
    rcases hb : entriesBatch env treeN start with ⟨r, cont⟩
    rw [hb] at hd
    cases cont with
    | none =>
      have := entriesBatch_cutCalls_ne_nil env treeN start d
      rw [hb] at this
      exact this hd
    | some next =>
      simp only [List.mem_append] at hd
      rcases hd with hd | hd
      · have := entriesBatch_cutCalls_ne_nil env treeN start d
        rw [hb] at this
        exact this hd
      · exact ih next d hd

/-- C8: the cut function is never invoked with an empty input — every
argument `Client.Entries` passes to `cut` is nonempty. -/
theorem cut_never_empty (env : EntriesEnv) (treeN start : Nat) :
    ∀ d ∈ (entriesRun env treeN start).cutCalls, d ≠ [] := by
  simp only [entriesRun]
  exact entriesGo_cutCalls_ne_nil env treeN (treeN + 1) start

/-- Witness for C8: in a concrete one-entry run the only cut argument is the
nonempty byte string `[0]`. -/
theorem cut_never_empty_witness : ([0] : ByteStr) ≠ [] ∧
    ([0] : ByteStr) ∈ (entriesRun exEnvGood 1 0).cutCalls := by
  refine ⟨cut_never_empty exEnvGood 1 0 [0] ?_, ?_⟩ <;> decide

lemma permSaveLoop_preserves (env : PermEnv) :
    ∀ (tds : List (Tile × ByteStr)) (fs : FS) (p : String) (d : ByteStr),
      fs p = some d → (permSaveLoop env fs tds).1 p = some d := by
  intro tds
  induction tds with
  | nil => intro fs p d h; simpa [permSaveLoop] using h
  | cons td rest ih =>
    intro fs p d h
    obtain ⟨t, b⟩ := td
    simp only [permSaveLoop]
    split
    · exact ih fs p d h
    · split
      · exact ih fs p d h
      · split
        · exact ih fs p d h
        · split
          · exact h
          · split
            · exact ih fs p d h
            · refine ih _ p d ?_
              unfold fsWrite
              split
              · next heq =>
                exfalso
                next hnone _ _ =>
                  rw [heq] at h
                  rw [h] at hnone
                  simp at hnone
              · exact h

lemma permSaveLoop_new (env : PermEnv) :
    ∀ (tds : List (Tile × ByteStr)) (fs : FS) (p : String) (d : ByteStr),
      (permSaveLoop env fs tds).1 p = some d →
      fs p = some d ∨ ∃ td ∈ tds, td.1.H = (TileHeight : Int) ∧
        td.1.W = (TileWidth : Int) ∧ p = env.tilePath td.1 ∧ d = td.2 := by
  intro tds
  induction tds with
  | nil => intro fs p d h; simp only [permSaveLoop] at h; exact Or.inl h
  | cons td rest ih =>
    intro fs p d h
    obtain ⟨t, b⟩ := td
    simp only [permSaveLoop] at h
    by_cases h1 : t.H ≠ (TileHeight : Int)
    · rw [if_pos h1] at h
      rcases ih fs p d h with hx | ⟨td, htd, hh⟩
      · exact Or.inl hx
      · exact Or.inr ⟨td, List.mem_cons_of_mem _ htd, hh⟩
    · rw [if_neg h1] at h
      by_cases h2 : t.W ≠ (TileWidth : Int)
      · rw [if_pos h2] at h
        rcases ih fs p d h with hx | ⟨td, htd, hh⟩
        · exact Or.inl hx
        · exact Or.inr ⟨td, List.mem_cons_of_mem _ htd, hh⟩
      · rw [if_neg h2] at h
        by_cases h3 : (fs (env.tilePath t)).isSome
        · rw [if_pos h3] at h
          rcases ih fs p d h with hx | ⟨td, htd, hh⟩
          · exact Or.inl hx
          · exact Or.inr ⟨td, List.mem_cons_of_mem _ htd, hh⟩
        · rw [if_neg h3] at h
          by_cases h4 : env.mkdirFails (env.tilePath t) = true
          · rw [if_pos h4] at h
            exact Or.inl h
          · rw [if_neg h4] at h
            by_cases h5 : env.writeFails (env.tilePath t) = true
            · rw [if_pos h5] at h
              rcases ih fs p d h with hx | ⟨td, htd, hh⟩
              · exact Or.inl hx
              · exact Or.inr ⟨td, List.mem_cons_of_mem _ htd, hh⟩
            · rw [if_neg h5] at h
              rcases ih _ p d h with hx | ⟨td, htd, hh⟩
              · unfold fsWrite at hx
                by_cases h6 : p = env.tilePath t
                · rw [if_pos h6] at hx
                  exact Or.inr ⟨(t, b), List.mem_cons_self _ _,
                    not_ne_iff.mp h1, not_ne_iff.mp h2, h6, (Option.some.inj hx).symm⟩
                · rw [if_neg h6] at hx
                  exact Or.inl hx
              · exact Or.inr ⟨td, List.mem_cons_of_mem _ htd, hh⟩

/-- C4: `PermanentCache.SaveTiles` never writes a descriptor with `W`
different from the full tile width and never rewrites an existing path:
after any sequence of calls, every pre-existing file is untouched and every
file present was either there initially or written, once, as the bytes of a
full tile of the configured height. -/
theorem permanentCache_full_tiles_immutable (env : PermEnv)
    (calls : List (List Tile × List ByteStr)) (fs : FS) (p : String) :
    (∀ d, fs p = some d → permSaveSeq env fs calls p = some d) ∧
    (∀ d, permSaveSeq env fs calls p = some d →
      fs p = some d ∨ ∃ c ∈ calls, ∃ td ∈ c.1.zip c.2,
        td.1.H = (TileHeight : Int) ∧ td.1.W = (TileWidth : Int) ∧
        p = env.tilePath td.1 ∧ d = td.2) := by
  induction calls generalizing fs with
  | nil => exact ⟨fun d h => h, fun d h => Or.inl h⟩
  | cons c rest ih =>
    constructor
    · intro d h
      exact ((ih _).1) d (permSaveLoop_preserves env (c.1.zip c.2) fs p d h)
    · intro d h
      rcases ((ih _).2) d h with h1 | ⟨c2, hc2, hh⟩
      · rcases permSaveLoop_new env (c.1.zip c.2) fs p d h1 with h2 | ⟨td, htd, hh⟩
        · exact Or.inl h2
        · exact Or.inr ⟨c, List.mem_cons_self _ _, td, htd, hh⟩
      · exact Or.inr ⟨c2, List.mem_cons_of_mem _ hc2, hh⟩

/-- Witness for C4: a pre-existing file survives a save of a full tile, and
the saved file holds that tile's bytes. -/
theorem permanentCache_full_tiles_immutable_witness :
    permSaveSeq exPermEnv (fun q => if q = "z" then some [1] else none)
      [([exFullTile], [[7]])] "z" = some [1] ∧
    permSaveSeq exPermEnv (fun q => if q = "z" then some [1] else none)
      [([exFullTile], [[7]])] "0" = some [7] := by
  constructor
  · exact (permanentCache_full_tiles_immutable exPermEnv [([exFullTile], [[7]])]
      (fun q => if q = "z" then some [1] else none) "z").1 [1] (by decide)
  · decide

/-- Counterexample for C5: on a directory-creation failure,
`PermanentCache.SaveTiles` returns without forwarding anything to the inner
tile source, so the complete descriptor and data lists are not forwarded. -/
theorem permanentCache_forward_counterexample :
    (permSaveTiles exPermEnvMkdirFail (fun _ => none) [exFullTile] [[7]]).2 = [] ∧
    (permSaveTiles exPermEnvMkdirFail (fun _ => none) [exFullTile] [[7]]).2 ≠
      [([exFullTile], [[7]])] := by
  exact ⟨rfl, by decide⟩

/-- C5 (amended): `PermanentCache.SaveTiles` surfaces no error, and provided
no directory-creation failure occurs it forwards the complete descriptor and
data lists to the inner source's `SaveTiles` regardless of file-write
failures, which are only logged. -/
theorem permanentCache_forward_amended (env : PermEnv) (fs : FS)
    (tiles : List Tile) (data : List ByteStr)
    (hmk : ∀ p, env.mkdirFails p = false) :
    (permSaveTiles env fs tiles data).2 = [(tiles, data)] := by
  have hloop : ∀ (tds : List (Tile × ByteStr)) (fs0 : FS),
      (permSaveLoop env fs0 tds).2 = false := by
    intro tds
    induction tds with
    | nil => intro fs0; rfl
    | cons td rest ih =>
      intro fs0
      obtain ⟨t, b⟩ := td
      simp only [permSaveLoop]
      split
      · exact ih fs0
      · split
        · exact ih fs0
        · split
          · exact ih fs0
          · split
            · next hfail => rw [hmk] at hfail; exact absurd hfail (by simp)
            · split
              · exact ih fs0
              · exact ih _
  simp only [permSaveTiles, hloop (tiles.zip data) fs]
  rfl

/-- Witness for C5 (amended): with every file write failing but directory
creation succeeding, the complete lists are still forwarded. -/
theorem permanentCache_forward_amended_witness :
    (permSaveTiles
      { tilePath := fun _ => "p", mkdirFails := fun _ => false,
        writeFails := fun _ => true } (fun _ => none) [exFullTile] [[7]]).2 =
      [([exFullTile], [[7]])] := by
  exact permanentCache_forward_amended _ _ _ _ (fun _ => rfl)

lemma tileLess_iff (a b : Tile) : tileLess a b = true ↔ specTileLess a b := by
  unfold tileLess specTileLess
  by_cases ha : a = zeroTile
  · simp [ha]
  · rw [if_neg ha]
    by_cases hb : b = zeroTile
    · simp [ha, hb]
    · rw [if_neg hb]
      simp [ha, hb, beq_iff_eq]

lemma edgeUpdate_self (m : EdgeMap) (l : Int) (v : TileWithData × TileWithData) :
    edgeUpdate m l v l = some v := by
  simp [edgeUpdate]

lemma edgeUpdate_other (m : EdgeMap) (l : Int) (v : TileWithData × TileWithData)
    {q : Int} (hq : q ≠ l) : edgeUpdate m l v q = m q := by
  simp [edgeUpdate, hq]

lemma edgeSaveStep_of_none {m : EdgeMap} {t : Tile} (d : ByteStr)
    (h : m t.L = none) :
    edgeSaveStep m t d = edgeUpdate m t.L (⟨t, d⟩, zeroTWD) := by
  simp only [edgeSaveStep, h]

lemma edgeSaveStep_of_some {m : EdgeMap} {t : Tile} {s : TileWithData × TileWithData}
    (d : ByteStr) (h : m t.L = some s) :
    edgeSaveStep m t d =
      if s.1.tile = t ∨ s.2.tile = t then m
      else if tileLess s.1.tile t && tileLess s.1.tile s.2.tile then
        edgeUpdate m t.L (⟨t, d⟩, s.2)
      else if tileLess s.2.tile t && tileLess s.2.tile s.1.tile then
        edgeUpdate m t.L (s.1, ⟨t, d⟩)
      else m := by
  simp only [edgeSaveStep, h]

lemma edgeSaveStep_inv {m : EdgeMap} {t : Tile} {d : ByteStr}
    (hm : edgeInv m) (ht : t ≠ zeroTile) : edgeInv (edgeSaveStep m t d) := by
  intro l s hs
  cases hml : m t.L with
  | none =>
    rw [edgeSaveStep_of_none d hml] at hs
    by_cases hl : l = t.L
    · subst hl
      rw [edgeUpdate_self] at hs
      cases hs
      exact ht
    · rw [edgeUpdate_other _ _ _ hl] at hs
      exact hm l s hs
  | some td =>
    rw [edgeSaveStep_of_some d hml] at hs
    split at hs
    · exact hm l s hs
    · split at hs
      · by_cases hl : l = t.L
        · subst hl
          rw [edgeUpdate_self] at hs
          cases hs
          exact ht
        · rw [edgeUpdate_other _ _ _ hl] at hs
          exact hm l s hs
      · split at hs
        · by_cases hl : l = t.L
          · subst hl
            rw [edgeUpdate_self] at hs
            cases hs
            exact hm t.L td hml
          · rw [edgeUpdate_other _ _ _ hl] at hs
            exact hm l s hs
        · exact hm l s hs

lemma edgeSaveStep_present {m : EdgeMap} {t : Tile} {d : ByteStr} {l : Int}
    (h : ∃ s, m l = some s) : ∃ s, edgeSaveStep m t d l = some s := by
  obtain ⟨s, hs⟩ := h
  by_cases hl : l = t.L
  · subst hl
    cases hml : m t.L with
    | none => exact ⟨_, by rw [edgeSaveStep_of_none d hml, edgeUpdate_self]⟩
    | some td =>
      rw [edgeSaveStep_of_some d hml]
      split
      · exact ⟨s, hs⟩
      · split
        · exact ⟨_, edgeUpdate_self m t.L _⟩
        · split
          · exact ⟨_, edgeUpdate_self m t.L _⟩
          · exact ⟨s, hs⟩
  · cases hml : m t.L with
    | none => exact ⟨s, by rw [edgeSaveStep_of_none d hml, edgeUpdate_other _ _ _ hl]; exact hs⟩
    | some td =>
      rw [edgeSaveStep_of_some d hml]
      split
      · exact ⟨s, hs⟩
      · split
        · exact ⟨s, by rw [edgeUpdate_other _ _ _ hl]; exact hs⟩
        · split
          · exact ⟨s, by rw [edgeUpdate_other _ _ _ hl]; exact hs⟩
          · exact ⟨s, hs⟩

lemma edgeSaveStep_own_present (m : EdgeMap) (t : Tile) (d : ByteStr) :
    ∃ s, edgeSaveStep m t d t.L = some s := by
  cases hml : m t.L with
  | none => exact ⟨_, by rw [edgeSaveStep_of_none d hml, edgeUpdate_self]⟩
  | some td =>
    rw [edgeSaveStep_of_some d hml]
    split
    · exact ⟨td, hml⟩
    · split
      · exact ⟨_, edgeUpdate_self m t.L _⟩
      · split
        · exact ⟨_, edgeUpdate_self m t.L _⟩
        · exact ⟨td, hml⟩

lemma edgeSaveFold_inv :
    ∀ (tds : List (Tile × ByteStr)) (m : EdgeMap), edgeInv m →
      (∀ td ∈ tds, td.1 ≠ zeroTile) →
      edgeInv (tds.foldl (fun acc td => edgeSaveStep acc td.1 td.2) m) := by
  intro tds
  induction tds with
  | nil => intro m hm _; exact hm
  | cons td rest ih =>
    intro m hm htds
    exact ih _ (edgeSaveStep_inv hm (htds td (List.mem_cons_self _ _)))
      (fun x hx => htds x (List.mem_cons_of_mem _ hx))

lemma edgeSaveFold_present :
    ∀ (tds : List (Tile × ByteStr)) (m : EdgeMap) (l : Int),
      (∃ s, m l = some s) →
      ∃ s, (tds.foldl (fun acc td => edgeSaveStep acc td.1 td.2) m) l = some s := by
  intro tds
  induction tds with
  | nil => intro m l h; exact h
  | cons td rest ih =>
    intro m l h
    exact ih _ l (edgeSaveStep_present h)

lemma edgeSaveFold_mem_present :
    ∀ (tds : List (Tile × ByteStr)) (m : EdgeMap) (td : Tile × ByteStr), td ∈ tds →
      ∃ s, (tds.foldl (fun acc x => edgeSaveStep acc x.1 x.2) m) td.1.L = some s := by
  intro tds
  induction tds with
  | nil => intro m td h; cases h
  | cons x rest ih =>
    intro m td h
    rcases List.mem_cons.mp h with h | h
    · subst h
      exact edgeSaveFold_present rest _ td.1.L (edgeSaveStep_own_present m td.1 td.2)
    · exact ih _ td h

/-- C7: the slot policy of `edgeMemoryCache.SaveTiles`. For each saved
descriptor: an unseen level is created with the descriptor in slot 0; a
duplicate descriptor changes nothing; otherwise the slot strictly less (in
the spec's order: zero least, then `(N, W)` lexicographic) than both the new
descriptor and the other slot is displaced by the new pair. Consequently,
once a level has been observed its two slots are never both zero, and a
duplicate never displaces either slot. -/
theorem edgeCache_save_policy (m : EdgeMap) (t : Tile) (d : ByteStr)
    (tds : List (Tile × ByteStr)) (hm : edgeInv m) (ht : t ≠ zeroTile)
    (htds : ∀ td ∈ tds, td.1 ≠ zeroTile) :
    (m t.L = none → (edgeSaveStep m t d) t.L = some (⟨t, d⟩, zeroTWD)) ∧
    (∀ s, m t.L = some s → (s.1.tile = t ∨ s.2.tile = t) →
      edgeSaveStep m t d = m) ∧
    (∀ s, m t.L = some s → ¬(s.1.tile = t ∨ s.2.tile = t) →
      specTileLess s.1.tile t → specTileLess s.1.tile s.2.tile →
      (edgeSaveStep m t d) t.L = some (⟨t, d⟩, s.2)) ∧
    (∀ s, m t.L = some s → ¬(s.1.tile = t ∨ s.2.tile = t) →
      specTileLess s.2.tile t → specTileLess s.2.tile s.1.tile →
      (edgeSaveStep m t d) t.L = some (s.1, ⟨t, d⟩)) ∧
    (∀ td ∈ tds, ∃ s,
      (edgeSaveTiles m tds).1 td.1.L = some s ∧
      ¬(s.1.tile = zeroTile ∧ s.2.tile = zeroTile)) := by
  refine ⟨?_, ?_, ?_, ?_, ?_⟩
  · intro hnone
    rw [edgeSaveStep_of_none d hnone, edgeUpdate_self]
  · intro s hs hdup
    rw [edgeSaveStep_of_some d hs, if_pos hdup]
  · intro s hs hdup hl1 hl2
    rw [edgeSaveStep_of_some d hs, if_neg hdup,
      if_pos (by rw [Bool.and_eq_true, tileLess_iff, tileLess_iff]; exact ⟨hl1, hl2⟩),
      edgeUpdate_self]
  · intro s hs hdup hl1 hl2
    have hs1 : s.1.tile ≠ zeroTile := hm t.L s hs
    have hc3 : ¬(tileLess s.1.tile t && tileLess s.1.tile s.2.tile) = true := by
      rw [Bool.and_eq_true, tileLess_iff, tileLess_iff]
      rintro ⟨-, h12⟩
      rcases h12 with h12 | ⟨h2ne, h12⟩
      · exact hs1 h12
      · rcases hl2 with h21 | ⟨-, h21⟩
        · exact h2ne h21
        · omega
    rw [edgeSaveStep_of_some d hs, if_neg hdup, if_neg hc3,
      if_pos (by rw [Bool.and_eq_true, tileLess_iff, tileLess_iff]; exact ⟨hl1, hl2⟩),
      edgeUpdate_self]
  · intro td htd
    have hinv := edgeSaveFold_inv tds m hm htds
    obtain ⟨s, hs⟩ := edgeSaveFold_mem_present tds m td htd
    refine ⟨s, ?_, fun hz => (hinv td.1.L s hs) hz.1⟩
    simpa only [edgeSaveTiles] using hs

/-- Witness for C7: saving two tiles at a fresh level leaves its two slots
holding both of them, neither zero. -/
theorem edgeCache_save_policy_witness :
    (∃ s, (edgeSaveTiles (fun _ => none) [(exTileA, [1]), (exTileB, [2])]).1
        ((exTileA, ([1] : ByteStr)).1.L) = some s ∧
      ¬(s.1.tile = zeroTile ∧ s.2.tile = zeroTile)) ∧
    (edgeSaveTiles (fun _ => none) [(exTileA, [1]), (exTileB, [2])]).1 0 =
      some (⟨exTileA, [1]⟩, ⟨exTileB, [2]⟩) := by
  constructor
  · exact (edgeCache_save_policy (fun _ => none) exTileA [1]
      [(exTileA, [1]), (exTileB, [2])] (fun l s hs => by cases hs) (by decide)
      (by decide)).2.2.2.2 (exTileA, [1]) (by decide)
  · decide

lemma fetchGo_attempts_le (env : FetchEnv) :
    ∀ rem j ra errs, (fetchGo env rem j ra errs).2.2 ≤ rem := by
  intro rem
  induction rem with
  | zero => intro j ra errs; simp [fetchGo]
  | succ n ih =>
    intro j ra errs
    rcases ha : env.attempt j with m | ⟨st, hdr, body⟩
    · simp only [fetchGo, ha]
      exact Nat.succ_le_succ (ih (j + 1) none _)
    · simp only [fetchGo, ha]
      split
      · exact Nat.succ_le_succ (ih (j + 1) _ _)
      · split
        · simp
        · cases body with
          | ioErr m => exact Nat.succ_le_succ (ih (j + 1) none _)
          | ok b => simp

lemma fetchGo_pauses_length (env : FetchEnv) :
    ∀ rem j ra errs,
      (fetchGo env rem j ra errs).2.1.length =
        if j = 0 then (fetchGo env rem j ra errs).2.2 - 1
        else (fetchGo env rem j ra errs).2.2 := by
  intro rem
  induction rem with
  | zero => intro j ra errs; simp [fetchGo]
  | succ n ih =>
    intro j ra errs
    have hplen : (if j = 0 then ([] : List Pause) else
        match ra with
        | some instant => [Pause.untilInstant instant]
        | none => [Pause.backoff (5 ^ (j - 1))]).length =
        if j = 0 then 0 else 1 := by
      by_cases hj : j = 0
      · simp [hj]
      · rw [if_neg hj, if_neg hj]
        cases ra <;> rfl
    rcases ha : env.attempt j with m | ⟨st, hdr, body⟩
    · simp only [fetchGo, ha, List.length_append]
      have hlr := ih (j + 1) none (errs ++ [RetryErr.doFail m])
      rw [if_neg (Nat.succ_ne_zero j)] at hlr
      rw [hplen, hlr]
      by_cases hj : j = 0 <;> simp [hj] <;> omega
    · simp only [fetchGo, ha]
      by_cases hcond : st = 429 ∨ 500 ≤ st
      · rw [if_pos hcond]
        simp only [List.length_append]
        have hlr := ih (j + 1) (parseRetryAfter env hdr) (errs ++ [RetryErr.statusCode st])
        rw [if_neg (Nat.succ_ne_zero j)] at hlr
        rw [hplen, hlr]
        by_cases hj : j = 0 <;> simp [hj] <;> omega
      · rw [if_neg hcond]
        by_cases hne : st ≠ 200
        · rw [if_pos hne]
          simp only [hplen]
        · rw [if_neg hne]
          cases body with
          | ioErr m =>
            simp only [List.length_append]
            have hlr := ih (j + 1) none (errs ++ [RetryErr.bodyErr m])
            rw [if_neg (Nat.succ_ne_zero j)] at hlr
            rw [hplen, hlr]
            by_cases hj : j = 0 <;> simp [hj] <;> omega
          | ok b =>
            simp only [hplen]

lemma fetchGo_retryable (env : FetchEnv) :
    ∀ rem j ra errs k, k + 1 < (fetchGo env rem j ra errs).2.2 →
      retryableAttempt (env.attempt (j + k)) := by
  intro rem
  induction rem with
  | zero => intro j ra errs k hk; simp [fetchGo] at hk
  | succ n ih =>
    intro j ra errs k hk
    rcases ha : env.attempt j with m | ⟨st, hdr, body⟩
    · simp only [fetchGo, ha] at hk
      cases k with
      | zero => rw [Nat.add_zero, ha]; trivial
      | succ q =>
        have := ih (j + 1) none (errs ++ [.doFail m]) q (by omega)
        rwa [show j + 1 + q = j + (q + 1) by omega] at this
    · simp only [fetchGo, ha] at hk
      by_cases hcond : st = 429 ∨ 500 ≤ st
      · rw [if_pos hcond] at hk
        simp only [] at hk
        cases k with
        | zero =>
          rw [Nat.add_zero, ha]
          rcases hcond with hc | hc
          · exact Or.inl hc
          · exact Or.inr (Or.inl hc)
        | succ q =>
          have hq := ih (j + 1) (parseRetryAfter env hdr)
            (errs ++ [RetryErr.statusCode st]) q (by omega)
          rwa [show j + 1 + q = j + (q + 1) by omega] at hq
      · rw [if_neg hcond] at hk
        by_cases hne : st ≠ 200
        · rw [if_pos hne] at hk
          simp only [] at hk
          omega
        · rw [if_neg hne] at hk
          cases body with
          | ioErr m =>
            simp only [] at hk
            cases k with
            | zero =>
              rw [Nat.add_zero, ha]
              refine Or.inr (Or.inr ⟨by omega, m, rfl⟩)
            | succ q =>
              have hq := ih (j + 1) none (errs ++ [RetryErr.bodyErr m]) q (by omega)
              rwa [show j + 1 + q = j + (q + 1) by omega] at hq
          | ok b =>
            simp only [] at hk
            omega

lemma fetchGo_badStatus (env : FetchEnv) :
    ∀ rem j ra errs k st hdr b, k < (fetchGo env rem j ra errs).2.2 →
      env.attempt (j + k) = .resp st hdr b →
      st ≠ 200 → st ≠ 429 → st < 500 →
      (fetchGo env rem j ra errs).2.2 = k + 1 ∧
      (fetchGo env rem j ra errs).1 = .badStatus (j + k) st := by
  intro rem
  induction rem with
  | zero => intro j ra errs k st hdr b hk; simp [fetchGo] at hk
  | succ n ih =>
    intro j ra errs k st hdr b hk hatt h200 h429 h500
    rcases ha : env.attempt j with m | ⟨st0, hdr0, body0⟩
    · simp only [fetchGo, ha] at hk ⊢
      cases k with
      | zero => rw [Nat.add_zero, ha] at hatt; cases hatt
      | succ q =>
        have hrec := ih (j + 1) none (errs ++ [RetryErr.doFail m]) q st hdr b (by omega)
          (by rwa [show j + 1 + q = j + (q + 1) by omega]) h200 h429 h500
        rw [show j + 1 + q = j + (q + 1) by omega] at hrec
        obtain ⟨h1, h2⟩ := hrec
        exact ⟨by omega, h2⟩
    · simp only [fetchGo, ha] at hk ⊢
      by_cases hcond : st0 = 429 ∨ 500 ≤ st0
      · rw [if_pos hcond] at hk ⊢
        simp only [] at hk ⊢
        cases k with
        | zero =>
          rw [Nat.add_zero, ha] at hatt
          cases hatt
          rcases hcond with hc | hc
          · exact absurd hc h429
          · omega
        | succ q =>
          have hrec := ih (j + 1) (parseRetryAfter env hdr0)
            (errs ++ [RetryErr.statusCode st0]) q st hdr b (by omega)
            (by rwa [show j + 1 + q = j + (q + 1) by omega]) h200 h429 h500
          rw [show j + 1 + q = j + (q + 1) by omega] at hrec
          obtain ⟨h1, h2⟩ := hrec
          exact ⟨by omega, h2⟩
      · rw [if_neg hcond] at hk ⊢
        by_cases hne : st0 ≠ 200
        · rw [if_pos hne] at hk ⊢
          simp only [] at hk ⊢
          cases k with
          | zero =>
            rw [Nat.add_zero, ha] at hatt
            cases hatt
            exact ⟨rfl, rfl⟩
          | succ q => exact absurd hk (by omega)
        · rw [if_neg hne] at hk ⊢
          cases body0 with
          | ioErr m =>
            simp only [] at hk ⊢
            cases k with
            | zero =>
              rw [Nat.add_zero, ha] at hatt
              cases hatt
              exact absurd (by omega) h200
            | succ q =>
              have hrec := ih (j + 1) none (errs ++ [RetryErr.bodyErr m]) q st hdr b
                (by omega) (by rwa [show j + 1 + q = j + (q + 1) by omega]) h200 h429 h500
              rw [show j + 1 + q = j + (q + 1) by omega] at hrec
              obtain ⟨h1, h2⟩ := hrec
              exact ⟨by omega, h2⟩
          | ok b0 =>
            simp only [] at hk ⊢
            cases k with
            | zero =>
              rw [Nat.add_zero, ha] at hatt
              cases hatt
              exact absurd (by omega) h200
            | succ q => exact absurd hk (by omega)

lemma pause_append_spec (env : FetchEnv) (jp : Nat) (x : Pause) (rest : List Pause)
    (hx : x = expectedPause env (env.attempt jp) jp)
    (hrest : ∀ pp, pp < rest.length → rest.getD pp (.backoff 0) =
      expectedPause env (env.attempt (jp + 1 + pp)) (jp + 1 + pp)) :
    ∀ p, p < ([x] ++ rest).length → ([x] ++ rest).getD p (.backoff 0) =
      expectedPause env (env.attempt (jp + p)) (jp + p) := by
  intro p hp
  cases p with
  | zero => simpa using hx
  | succ pp =>
    simp only [List.singleton_append, List.getD_cons_succ]
    have hq := hrest pp (by simpa using hp)
    rwa [show jp + 1 + pp = jp + (pp + 1) by omega] at hq

lemma fetchGo_pauses_spec_pos (env : FetchEnv) :
    ∀ rem jp ra errs, ra = raOf env (env.attempt jp) →
      ∀ p, p < (fetchGo env rem (jp + 1) ra errs).2.1.length →
        (fetchGo env rem (jp + 1) ra errs).2.1.getD p (.backoff 0) =
          expectedPause env (env.attempt (jp + p)) (jp + p) := by
  intro rem
  induction rem with
  | zero => intro jp ra errs _ p hp; simp [fetchGo] at hp
  | succ n ih =>
    intro jp ra errs hra p hp
    subst hra
    rcases ha : env.attempt (jp + 1) with m | ⟨st, hdr, body⟩
    · simp only [fetchGo, ha, if_neg (Nat.succ_ne_zero jp)] at hp ⊢
      cases hro : raOf env (env.attempt jp) with
      | none =>
        simp only [hro] at hp ⊢
        refine pause_append_spec env jp _ _ (by simp [expectedPause, hro])
          (fun pp hpp => ?_) p hp
        exact ih (jp + 1) none (errs ++ [RetryErr.doFail m]) (by rw [ha]; rfl) pp hpp
      | some t =>
        simp only [hro] at hp ⊢
        refine pause_append_spec env jp _ _ (by simp [expectedPause, hro])
          (fun pp hpp => ?_) p hp
        exact ih (jp + 1) none (errs ++ [RetryErr.doFail m]) (by rw [ha]; rfl) pp hpp
    · simp only [fetchGo, ha, if_neg (Nat.succ_ne_zero jp)] at hp ⊢
      by_cases hcond : st = 429 ∨ 500 ≤ st
      · rw [if_pos hcond] at hp ⊢
        simp only [] at hp ⊢
        have hraNext : parseRetryAfter env hdr = raOf env (env.attempt (jp + 1)) := by
          rw [ha]
          simp only [raOf]
          rw [if_pos hcond]
        cases hro : raOf env (env.attempt jp) with
        | none =>
          simp only [hro] at hp ⊢
          refine pause_append_spec env jp _ _ (by simp [expectedPause, hro])
            (fun pp hpp => ?_) p hp
          exact ih (jp + 1) (parseRetryAfter env hdr) (errs ++ [RetryErr.statusCode st])
            hraNext pp hpp
        | some t =>
          simp only [hro] at hp ⊢
          refine pause_append_spec env jp _ _ (by simp [expectedPause, hro])
            (fun pp hpp => ?_) p hp
          exact ih (jp + 1) (parseRetryAfter env hdr) (errs ++ [RetryErr.statusCode st])
            hraNext pp hpp
      · rw [if_neg hcond] at hp ⊢
        by_cases hne : st ≠ 200
        · rw [if_pos hne] at hp ⊢
          simp only [] at hp ⊢
          cases hro : raOf env (env.attempt jp) with
          | none =>
            simp only [hro] at hp ⊢
            cases p with
            | zero => simp [expectedPause, hro]
            | succ pp => simp at hp
          | some t =>
            simp only [hro] at hp ⊢
            cases p with
            | zero => simp [expectedPause, hro]
            | succ pp => simp at hp
        · rw [if_neg hne] at hp ⊢
          cases body with
          | ioErr m =>
            simp only [] at hp ⊢
            have hraNext : (none : Option Int) = raOf env (env.attempt (jp + 1)) := by
              rw [ha]
              simp only [raOf]
              rw [if_neg hcond]
            cases hro : raOf env (env.attempt jp) with
            | none =>
              simp only [hro] at hp ⊢
              refine pause_append_spec env jp _ _ (by simp [expectedPause, hro])
                (fun pp hpp => ?_) p hp
              exact ih (jp + 1) none (errs ++ [RetryErr.bodyErr m]) hraNext pp hpp
            | some t =>
              simp only [hro] at hp ⊢
              refine pause_append_spec env jp _ _ (by simp [expectedPause, hro])
                (fun pp hpp => ?_) p hp
              exact ih (jp + 1) none (errs ++ [RetryErr.bodyErr m]) hraNext pp hpp
          | ok b =>
            simp only [] at hp ⊢
            cases hro : raOf env (env.attempt jp) with
            | none =>
              simp only [hro] at hp ⊢
              cases p with
              | zero => simp [expectedPause, hro]
              | succ pp => simp at hp
            | some t =>
              simp only [hro] at hp ⊢
              cases p with
              | zero => simp [expectedPause, hro]
              | succ pp => simp at hp

lemma fetchGo_step0_doFail (env : FetchEnv) (rem : Nat) (errs : List RetryErr)
    (m : String) (ha : env.attempt 0 = .doFail m) :
    fetchGo env (rem + 1) 0 none errs =
      ((fetchGo env rem 1 none (errs ++ [RetryErr.doFail m])).1,
       (fetchGo env rem 1 none (errs ++ [RetryErr.doFail m])).2.1,
       (fetchGo env rem 1 none (errs ++ [RetryErr.doFail m])).2.2 + 1) := by
  simp only [fetchGo, ha]
  simp

lemma fetchGo_step0_retry (env : FetchEnv) (rem : Nat) (errs : List RetryErr)
    (st : Int) (hdr : String) (body : BodyRes)
    (ha : env.attempt 0 = .resp st hdr body) (hcond : st = 429 ∨ 500 ≤ st) :
    fetchGo env (rem + 1) 0 none errs =
      ((fetchGo env rem 1 (parseRetryAfter env hdr)
          (errs ++ [RetryErr.statusCode st])).1,
       (fetchGo env rem 1 (parseRetryAfter env hdr)
          (errs ++ [RetryErr.statusCode st])).2.1,
       (fetchGo env rem 1 (parseRetryAfter env hdr)
          (errs ++ [RetryErr.statusCode st])).2.2 + 1) := by
  simp only [fetchGo, ha]
  rw [if_pos hcond]
  simp

lemma fetchGo_step0_badStatus (env : FetchEnv) (rem : Nat) (errs : List RetryErr)
    (st : Int) (hdr : String) (body : BodyRes)
    (ha : env.attempt 0 = .resp st hdr body) (hcond : ¬(st = 429 ∨ 500 ≤ st))
    (hne : st ≠ 200) :
    fetchGo env (rem + 1) 0 none errs = (.badStatus 0 st, [], 1) := by
  simp only [fetchGo, ha]
  rw [if_neg hcond, if_pos hne]
  simp

lemma fetchGo_step0_bodyErr (env : FetchEnv) (rem : Nat) (errs : List RetryErr)
    (st : Int) (hdr : String) (m : String)
    (ha : env.attempt 0 = .resp st hdr (.ioErr m)) (hcond : ¬(st = 429 ∨ 500 ≤ st))
    (hne : ¬st ≠ 200) :
    fetchGo env (rem + 1) 0 none errs =
      ((fetchGo env rem 1 none (errs ++ [RetryErr.bodyErr m])).1,
       (fetchGo env rem 1 none (errs ++ [RetryErr.bodyErr m])).2.1,
       (fetchGo env rem 1 none (errs ++ [RetryErr.bodyErr m])).2.2 + 1) := by
  simp only [fetchGo, ha]
  rw [if_neg hcond, if_neg hne]
  simp

lemma fetchGo_step0_ok (env : FetchEnv) (rem : Nat) (errs : List RetryErr)
    (st : Int) (hdr : String) (b : ByteStr)
    (ha : env.attempt 0 = .resp st hdr (.ok b)) (hcond : ¬(st = 429 ∨ 500 ≤ st))
    (hne : ¬st ≠ 200) :
    fetchGo env (rem + 1) 0 none errs = (.body b, [], 1) := by
  simp only [fetchGo, ha]
  rw [if_neg hcond, if_neg hne]
  simp

/-- C6 (amended): per tile request, at most 5 HTTP attempts are made; a
retry happens only after a network error (transport or response-body read),
an HTTP 429, or an HTTP 5xx; any other non-200 status fails the request
immediately at that attempt with no further attempts; and the pause before
each retry is determined by the attempt just completed: until the instant of
its `Retry-After` header when that attempt got a 429/5xx response whose
header parses (as integer seconds from now or as an HTTP date), else the
default `5^(j-1)`-second backoff — in particular an absent or unparseable
`Retry-After` falls back to the default backoff. -/
theorem fetch_retry_policy_amended (env : FetchEnv) :
    (fetchTile env).2.2 ≤ 5 ∧
    (fetchTile env).2.1.length = (fetchTile env).2.2 - 1 ∧
    (∀ k, k + 1 < (fetchTile env).2.2 → retryableAttempt (env.attempt k)) ∧
    (∀ k st hdr b, k < (fetchTile env).2.2 → env.attempt k = .resp st hdr b →
      st ≠ 200 → st ≠ 429 → st < 500 →
      (fetchTile env).2.2 = k + 1 ∧ (fetchTile env).1 = .badStatus k st) ∧
    (∀ k, k + 1 < (fetchTile env).2.2 →
      (fetchTile env).2.1.getD k (.backoff 0) = expectedPause env (env.attempt k) k) := by
  refine ⟨fetchGo_attempts_le env 5 0 none [], ?_, ?_, ?_, ?_⟩
  · have hl := fetchGo_pauses_length env 5 0 none []
    rwa [if_pos rfl] at hl
  · intro k hk
    have hr := fetchGo_retryable env 5 0 none [] k hk
    simpa using hr
  · intro k st hdr b hk hatt h200 h429 h500
    have hb := fetchGo_badStatus env 5 0 none [] k st hdr b hk (by simpa using hatt)
      h200 h429 h500
    simpa using hb
  · intro k hk
    rcases ha : env.attempt 0 with m | ⟨st, hdr, body⟩
    · have heq : fetchTile env = ((fetchGo env 4 1 none [RetryErr.doFail m]).1,
          (fetchGo env 4 1 none [RetryErr.doFail m]).2.1,
          (fetchGo env 4 1 none [RetryErr.doFail m]).2.2 + 1) := by
        have hs := fetchGo_step0_doFail env 4 [] m ha
        simpa using hs
      rw [heq] at hk ⊢
      simp only [] at hk ⊢
      have hlen := fetchGo_pauses_length env 4 1 none [RetryErr.doFail m]
      rw [if_neg one_ne_zero] at hlen
      have hq := fetchGo_pauses_spec_pos env 4 0 none [RetryErr.doFail m]
        (by rw [ha]; rfl) k
        (by show k < (fetchGo env 4 1 none [RetryErr.doFail m]).2.1.length; omega)
      simpa using hq
    · by_cases hcond : st = 429 ∨ 500 ≤ st
      · have heq : fetchTile env =
            ((fetchGo env 4 1 (parseRetryAfter env hdr) [RetryErr.statusCode st]).1,
            (fetchGo env 4 1 (parseRetryAfter env hdr) [RetryErr.statusCode st]).2.1,
            (fetchGo env 4 1 (parseRetryAfter env hdr) [RetryErr.statusCode st]).2.2
              + 1) := by
          have hs := fetchGo_step0_retry env 4 [] st hdr body ha hcond
          simpa using hs
        rw [heq] at hk ⊢
        simp only [] at hk ⊢
        have hlen := fetchGo_pauses_length env 4 1 (parseRetryAfter env hdr)
          [RetryErr.statusCode st]
        rw [if_neg one_ne_zero] at hlen
        have hq := fetchGo_pauses_spec_pos env 4 0 (parseRetryAfter env hdr)
          [RetryErr.statusCode st]
          (by rw [ha]; simp only [raOf]; rw [if_pos hcond]) k
          (by show k < (fetchGo env 4 1 (parseRetryAfter env hdr)
            [RetryErr.statusCode st]).2.1.length; omega)
        simpa using hq
      · by_cases hne : st ≠ 200
        · have heq : fetchTile env = (.badStatus 0 st, [], 1) :=
            fetchGo_step0_badStatus env 4 [] st hdr body ha hcond hne
          rw [heq] at hk
          simp only [] at hk
          omega
        · cases body with
          | ioErr m =>
            have heq : fetchTile env =
                ((fetchGo env 4 1 none [RetryErr.bodyErr m]).1,
                (fetchGo env 4 1 none [RetryErr.bodyErr m]).2.1,
                (fetchGo env 4 1 none [RetryErr.bodyErr m]).2.2 + 1) := by
              have hs := fetchGo_step0_bodyErr env 4 [] st hdr m ha hcond hne
              simpa using hs
            rw [heq] at hk ⊢
            simp only [] at hk ⊢
            have hlen := fetchGo_pauses_length env 4 1 none [RetryErr.bodyErr m]
            rw [if_neg one_ne_zero] at hlen
            have hq := fetchGo_pauses_spec_pos env 4 0 none [RetryErr.bodyErr m]
              (by rw [ha]; simp only [raOf]; rw [if_neg hcond]) k
              (by show k < (fetchGo env 4 1 none [RetryErr.bodyErr m]).2.1.length
                  omega)
            simpa using hq
          | ok b =>
            have heq : fetchTile env = (.body b, [], 1) :=
              fetchGo_step0_ok env 4 [] st hdr b ha hcond hne
            rw [heq] at hk
            simp only [] at hk
            omega

/-- Witness for C6 (amended): after the 503 the client pauses for the default
`5^0 = 1` second and succeeds on the second attempt. -/
theorem fetch_retry_policy_amended_witness :
    (fetchTile exFetchEnvRetry).2.1.getD 0 (.backoff 0) =
      expectedPause exFetchEnvRetry (exFetchEnvRetry.attempt 0) 0 ∧
    (fetchTile exFetchEnvRetry).2.1 = [.backoff 1] ∧
    (fetchTile exFetchEnvRetry).2.2 = 2 ∧
    (fetchTile exFetchEnvRetry).1 = .body [9] := by
  refine ⟨(fetch_retry_policy_amended exFetchEnvRetry).2.2.2.2 0 (by decide),
    by decide, by decide, by decide⟩

/-- Counterexample for C6: before the third attempt, the most recent
response received so far is the first attempt's 429, whose `Retry-After`
header parses (to instant 103) — the claim would have the client sleep until
that instant, but the code already consumed it before the second attempt and
takes the default 5-second backoff instead. -/
theorem fetch_retryAfter_counterexample :
    exFetchEnvRA.attempt 0 = .resp 429 "3" (.ok []) ∧
    exFetchEnvRA.attempt 1 = .doFail "net" ∧
    parseRetryAfter exFetchEnvRA "3" = some 103 ∧
    (fetchTile exFetchEnvRA).2.1 = [.untilInstant 103, .backoff 5] ∧
    (fetchTile exFetchEnvRA).2.1.getD 1 (.backoff 0) ≠ .untilInstant 103 := by
  refine ⟨rfl, rfl, by decide, by decide, by decide⟩

/-! ### Facts about the per-tile cut loop -/

lemma cutTileLoop_zero_eq (cut : CutFn) (hashes : List Hash) (base start tileN i : Nat)
    (data : ByteStr) :
    cutTileLoop cut hashes base start tileN i 0 data =
      if data = [] then ([], [], none) else ([], [], some (.leftoverData i tileN)) := rfl

lemma cutTileLoop_succ_eq (cut : CutFn) (hashes : List Hash)
    (base start tileN i n : Nat) (data : ByteStr) :
    cutTileLoop cut hashes base start tileN i (n + 1) data =
      if data = [] then ([], [], some (.endOfTileData i tileN))
      else
        match cut data with
        | .error e => ([], [data], some (.cutEntry i e))
        | .ok (entry, rh, rest) =>
          if rh ≠ hashes.getD (i - base) 0 then ([], [data], some (.hashMismatch i))
          else
            let r := cutTileLoop cut hashes base start tileN (i + 1) n rest
            ((if start ≤ i then (i, entry) :: r.1 else r.1), data :: r.2.1, r.2.2) := rfl

lemma cutTileLoop_clean_fst (cut : CutFn) (hashes : List Hash) (base start tileN : Nat) :
    ∀ (count i : Nat) (data : ByteStr),
      (cutTileLoop cut hashes base start tileN i count data).2.2 = none →
      (cutTileLoop cut hashes base start tileN i count data).1.map Prod.fst =
        (List.range' i count).filter (fun k => decide (start ≤ k)) := by
  intro count
  induction count with
  | zero =>
    intro i data h
    rw [cutTileLoop_zero_eq]
    split <;> simp
  | succ n ih =>
    intro i data h
    rw [cutTileLoop_succ_eq] at h ⊢
    by_cases hd : data = []
    · rw [if_pos hd] at h; simp at h
    · rw [if_neg hd] at h ⊢
      cases hc : cut data with
      | error e => rw [hc] at h; simp at h
      | ok out =>
        obtain ⟨entry, rh, rest⟩ := out
        rw [hc] at h
        simp only [] at h ⊢
        by_cases hrh : rh ≠ hashes.getD (i - base) 0
        · rw [if_pos hrh] at h; simp at h
        · rw [if_neg hrh] at h ⊢
          simp only [] at h ⊢
          rw [List.range'_succ, List.filter_cons]
          by_cases hs : start ≤ i
          · rw [if_pos hs]
            simp only [List.map_cons]
            rw [ih (i + 1) rest h]
            simp [hs]
          · rw [if_neg hs]
            rw [ih (i + 1) rest h]
            simp [hs]

lemma cutTileLoop_err_bound (cut : CutFn) (hashes : List Hash)
    (base start tileN : Nat) :
    ∀ (count i : Nat) (data : ByteStr) (e : EntriesError),
      (cutTileLoop cut hashes base start tileN i count data).2.2 = some e →
      i ≤ failIndex e ∧
        ∀ q ∈ (cutTileLoop cut hashes base start tileN i count data).1,
          q.1 < failIndex e := by
  intro count
  induction count with
  | zero =>
    intro i data e h
    rw [cutTileLoop_zero_eq] at h ⊢
    split at h
    · simp at h
    · cases h
      exact ⟨Nat.le_refl i, by split <;> simp⟩
  | succ n ih =>
    intro i data e h
    rw [cutTileLoop_succ_eq] at h ⊢
    by_cases hd : data = []
    · rw [if_pos hd] at h ⊢
      cases h
      exact ⟨Nat.le_refl i, by simp⟩
    · rw [if_neg hd] at h ⊢
      cases hc : cut data with
      | error e2 =>
        rw [hc] at h
        simp only [] at h ⊢
        cases h
        exact ⟨Nat.le_refl i, by simp⟩
      | ok out =>
        obtain ⟨entry, rh, rest⟩ := out
        rw [hc] at h
        simp only [] at h ⊢
        by_cases hrh : rh ≠ hashes.getD (i - base) 0
        · rw [if_pos hrh] at h ⊢
          cases h
          exact ⟨Nat.le_refl i, by simp⟩
        · rw [if_neg hrh] at h ⊢
          simp only [] at h ⊢
          obtain ⟨h1, h2⟩ := ih (i + 1) rest e h
          refine ⟨by omega, ?_⟩
          intro q hq
          by_cases hs : start ≤ i
          · rw [if_pos hs] at hq
            rcases List.mem_cons.mp hq with hq | hq
            · subst hq; simp only []; omega
            · exact h2 q hq
          · rw [if_neg hs] at hq
            exact h2 q hq

lemma cutTileLoop_auth (cut : CutFn) (hashes : List Hash) (base start tileN : Nat)
    (recordHash : ByteStr → Hash) (lh : Nat → Hash)
    (hcut : ∀ d entry rh rest, cut d = .ok (entry, rh, rest) → rh = recordHash entry) :
    ∀ (count i : Nat) (data : ByteStr),
      (∀ k, i ≤ k → k < i + count → hashes.getD (k - base) 0 = lh k) →
      ∀ q ∈ (cutTileLoop cut hashes base start tileN i count data).1,
        recordHash q.2 = lh q.1 := by
  intro count
  induction count with
  | zero =>
    intro i data _ q hq
    rw [cutTileLoop_zero_eq] at hq
    split at hq <;> simp at hq
  | succ n ih =>
    intro i data hh q hq
    rw [cutTileLoop_succ_eq] at hq
    by_cases hd : data = []
    · rw [if_pos hd] at hq; simp at hq
    · rw [if_neg hd] at hq
      cases hc : cut data with
      | error e => rw [hc] at hq; simp at hq
      | ok out =>
        obtain ⟨entry, rh, rest⟩ := out
        rw [hc] at hq
        simp only [] at hq
        by_cases hrh : rh ≠ hashes.getD (i - base) 0
        · rw [if_pos hrh] at hq; simp at hq
        · rw [if_neg hrh] at hq
          simp only [] at hq
          have hrec := ih (i + 1) rest
            (fun k hk1 hk2 => hh k (by omega) (by omega))
          by_cases hs : start ≤ i
          · rw [if_pos hs] at hq
            rcases List.mem_cons.mp hq with hq | hq
            · subst hq
              have he : rh = recordHash entry := hcut data entry rh rest hc
              have hv : hashes.getD (i - base) 0 = lh i :=
                hh i (Nat.le_refl i) (by omega)
              rw [not_ne_iff] at hrh
              simp only []
              rw [← he, hrh, hv]
            · exact hrec q hq
          · rw [if_neg hs] at hq
            exact hrec q hq

lemma cutTileLoop_res_start_indep (cut : CutFn) (hashes : List Hash)
    (base tileN : Nat) :
    ∀ (count i : Nat) (data : ByteStr) (s1 s2 : Nat),
      (cutTileLoop cut hashes base s1 tileN i count data).2.2 =
        (cutTileLoop cut hashes base s2 tileN i count data).2.2 := by
  intro count
  induction count with
  | zero => intro i data s1 s2; rw [cutTileLoop_zero_eq, cutTileLoop_zero_eq]
  | succ n ih =>
    intro i data s1 s2
    rw [cutTileLoop_succ_eq, cutTileLoop_succ_eq]
    by_cases hd : data = []
    · rw [if_pos hd, if_pos hd]
    · rw [if_neg hd, if_neg hd]
      cases hc : cut data with
      | error e => rfl
      | ok out =>
        obtain ⟨entry, rh, rest⟩ := out
        simp only []
        by_cases hrh : rh ≠ hashes.getD (i - base) 0
        · rw [if_pos hrh, if_pos hrh]
        · rw [if_neg hrh, if_neg hrh]
          simp only []
          exact ih (i + 1) rest s1 s2

lemma cutTileLoop_yields_filter (cut : CutFn) (hashes : List Hash)
    (base tileN : Nat) :
    ∀ (count i : Nat) (data : ByteStr) (s : Nat),
      (cutTileLoop cut hashes base s tileN i count data).1 =
        (cutTileLoop cut hashes base 0 tileN i count data).1.filter
          (fun q => decide (s ≤ q.1)) := by
  intro count
  induction count with
  | zero =>
    intro i data s
    rw [cutTileLoop_zero_eq, cutTileLoop_zero_eq]
    split <;> simp
  | succ n ih =>
    intro i data s
    rw [cutTileLoop_succ_eq, cutTileLoop_succ_eq]
    by_cases hd : data = []
    · rw [if_pos hd, if_pos hd]
      simp
    · rw [if_neg hd, if_neg hd]
      cases hc : cut data with
      | error e => simp
      | ok out =>
        obtain ⟨entry, rh, rest⟩ := out
        simp only []
        by_cases hrh : rh ≠ hashes.getD (i - base) 0
        · rw [if_pos hrh, if_pos hrh]
          simp
        · rw [if_neg hrh, if_neg hrh]
          simp only [if_pos (Nat.zero_le i), List.filter_cons]
          by_cases hs : s ≤ i
          · rw [if_pos hs]
            rw [ih (i + 1) rest s]
            simp [hs]
          · rw [if_neg hs]
            rw [ih (i + 1) rest s]
            simp [hs]

lemma cutTileLoop_hashes_congr (cut : CutFn) (tileN : Nat) :
    ∀ (count i : Nat) (data : ByteStr) (s : Nat)
      (hashes1 hashes2 : List Hash) (base1 base2 : Nat),
      (∀ k, i ≤ k → k < i + count →
        hashes1.getD (k - base1) 0 = hashes2.getD (k - base2) 0) →
      cutTileLoop cut hashes1 base1 s tileN i count data =
        cutTileLoop cut hashes2 base2 s tileN i count data := by
  intro count
  induction count with
  | zero => intro i data s h1 h2 b1 b2 _; rw [cutTileLoop_zero_eq, cutTileLoop_zero_eq]
  | succ n ih =>
    intro i data s h1 h2 b1 b2 hh
    rw [cutTileLoop_succ_eq, cutTileLoop_succ_eq]
    by_cases hd : data = []
    · rw [if_pos hd, if_pos hd]
    · rw [if_neg hd, if_neg hd]
      cases hc : cut data with
      | error e => rfl
      | ok out =>
        obtain ⟨entry, rh, rest⟩ := out
        simp only []
        have hv : h1.getD (i - b1) 0 = h2.getD (i - b2) 0 :=
          hh i (Nat.le_refl i) (by omega)
        rw [hv]
        by_cases hrh : rh ≠ h2.getD (i - b2) 0
        · rw [if_pos hrh, if_pos hrh]
        · rw [if_neg hrh, if_neg hrh]
          rw [ih (i + 1) rest s h1 h2 b1 b2 (fun k hk1 hk2 => hh k (by omega) (by omega))]

/-! ### Arithmetic and list helpers -/

lemma tileWidth_pos : 0 < TileWidth := by decide

lemma range'_split (a m n : Nat) :
    List.range' a (m + n) = List.range' a m ++ List.range' (a + m) n := by
  rw [Nat.add_comm m n]
  exact (by simpa using (List.range'_append a m n 1).symm)

lemma filter_range'_below (a n s : Nat) (h : a + n ≤ s) :
    (List.range' a n).filter (fun k => decide (s ≤ k)) = [] := by
  rw [List.filter_eq_nil_iff]
  intro k hk
  rw [List.mem_range'_1] at hk
  simp only [decide_eq_true_eq]
  omega

lemma filter_range'_all (a n s : Nat) (h : s ≤ a) :
    (List.range' a n).filter (fun k => decide (s ≤ k)) = List.range' a n := by
  rw [List.filter_eq_self]
  intro k hk
  rw [List.mem_range'_1] at hk
  simp only [decide_eq_true_eq]
  omega

lemma filter_range'_mid (a n s : Nat) (ha : a ≤ s) (hn : s ≤ a + n) :
    (List.range' a n).filter (fun k => decide (s ≤ k)) =
      List.range' s (a + n - s) := by
  have hsplit : List.range' a n = List.range' a (s - a) ++ List.range' s (a + n - s) := by
    calc List.range' a n
        = List.range' a ((s - a) + (a + n - s)) := by
          rw [show (s - a) + (a + n - s) = n by omega]
      _ = List.range' a (s - a) ++ List.range' (a + (s - a)) (a + n - s) :=
          range'_split a (s - a) (a + n - s)
      _ = List.range' a (s - a) ++ List.range' s (a + n - s) := by
          rw [show a + (s - a) = s by omega]
  rw [hsplit, List.filter_append, filter_range'_below a (s - a) s (by omega),
    filter_range'_all s (a + n - s) s (Nat.le_refl s), List.nil_append]

lemma getD_map_range' (f : Nat → Hash) :
    ∀ (n a k : Nat), a ≤ k → k < a + n →
      ((List.range' a n).map f).getD (k - a) 0 = f k := by
  intro n
  induction n with
  | zero => intro a k h1 h2; omega
  | succ m ih =>
    intro a k h1 h2
    rw [List.range'_succ, List.map_cons]
    rcases Nat.eq_or_lt_of_le h1 with h | h
    · subst h
      simp
    · have hk : k - a = (k - (a + 1)) + 1 := by omega
      rw [hk, List.getD_cons_succ]
      exact ih (a + 1) k (by omega) (by omega)

lemma cutTileLoop_clean_mem_bound (cut : CutFn) (hashes : List Hash)
    (base start tileN count i : Nat) (data : ByteStr)
    (h : (cutTileLoop cut hashes base start tileN i count data).2.2 = none) :
    ∀ q ∈ (cutTileLoop cut hashes base start tileN i count data).1,
      i ≤ q.1 ∧ q.1 < i + count := by
  intro q hq
  have hmem : q.1 ∈ (cutTileLoop cut hashes base start tileN i count data).1.map Prod.fst :=
    List.mem_map_of_mem Prod.fst hq
  rw [cutTileLoop_clean_fst cut hashes base start tileN count i data h] at hmem
  have := List.of_mem_filter hmem
  have hr := List.mem_of_mem_filter hmem
  rw [List.mem_range'_1] at hr
  omega

/-! ### Facts about batch tile processing -/

lemma processTiles_nil_eq (cut : CutFn) (hashes : List Hash) (base start : Nat) :
    processTiles cut hashes base [] start = ([], [], none, start) := rfl

lemma processTiles_cons_eq (cut : CutFn) (hashes : List Hash) (base : Nat)
    (t : Tile) (d : ByteStr) (rest : List (Tile × ByteStr)) (start : Nat) :
    processTiles cut hashes base ((t, d) :: rest) start =
      (let r := cutTileLoop cut hashes base start t.N.toNat
        (t.N.toNat * TileWidth) t.W.toNat d
      match r.2.2 with
      | some e => (r.1, r.2.1, some e, start)
      | none =>
        let q := processTiles cut hashes base rest
          (t.N.toNat * TileWidth + t.W.toNat)
        (r.1 ++ q.1, r.2.1 ++ q.2.1, q.2.2.1, q.2.2.2)) := rfl

lemma buildTilesGo_zero (top pos : Nat) : buildTilesGo top pos 0 = [] := rfl

lemma buildTilesGo_succ (top pos rem : Nat) :
    buildTilesGo top pos (rem + 1) =
      if top ≤ pos then []
      else
        { H := (TileHeight : Int), L := -1, N := (pos / TileWidth : Nat),
          W := ((min (pos + TileWidth) top - pos : Nat) : Int) } ::
          buildTilesGo top (pos + TileWidth) rem := rfl

lemma builtTile_N_toNat (top pos : Nat) :
    ({ H := (TileHeight : Int), L := -1, N := (pos / TileWidth : Nat),
       W := ((min (pos + TileWidth) top - pos : Nat) : Int) } : Tile).N.toNat =
      pos / TileWidth := Int.toNat_ofNat _

lemma builtTile_W_toNat (top pos : Nat) :
    ({ H := (TileHeight : Int), L := -1, N := (pos / TileWidth : Nat),
       W := ((min (pos + TileWidth) top - pos : Nat) : Int) } : Tile).W.toNat =
      min (pos + TileWidth) top - pos := Int.toNat_ofNat _

lemma processTiles_build_clean (cut : CutFn) (hashes : List Hash) (base top : Nat) :
    ∀ (rem pos : Nat) (tdata : List ByteStr) (start : Nat),
      TileWidth ∣ pos → start ≤ min (pos + TileWidth) top →
      ∀ ys cs res fin,
        processTiles cut hashes base ((buildTilesGo top pos rem).zip tdata) start =
          (ys, cs, res, fin) →
        res = none →
        (ys.map Prod.fst =
          (List.range' pos (fin - pos)).filter (fun k => decide (start ≤ k))) ∧
        fin ≤ top ∧
        (((buildTilesGo top pos rem).zip tdata = [] ∧ fin = start) ∨
          (min (pos + TileWidth) top ≤ fin ∧ (TileWidth ∣ fin ∨ fin = top))) := by
  have hW : 0 < TileWidth := tileWidth_pos
  have hempty : ∀ (pos start : Nat) (ys : List (Nat × ByteStr)) (cs : List ByteStr)
      (res : Option EntriesError) (fin : Nat),
      ([], [], none, start) = ((ys, cs, res, fin) :
        List (Nat × ByteStr) × List ByteStr × Option EntriesError × Nat) →
      (ys.map Prod.fst =
        (List.range' pos (fin - pos)).filter (fun k => decide (start ≤ k))) ∧
      fin = start := by
    intro pos start ys cs res fin hP
    obtain ⟨rfl, rfl, rfl, rfl⟩ :
        ([] : List (Nat × ByteStr)) = ys ∧ ([] : List ByteStr) = cs ∧
        (none : Option EntriesError) = res ∧ start = fin := by
      simpa using hP
    refine ⟨?_, rfl⟩
    rcases Nat.le_total pos start with hle | hle
    · rw [filter_range'_below pos (start - pos) start (by omega)]
      rfl
    · rw [show start - pos = 0 from by omega]
      rfl
  intro rem
  induction rem with
  | zero =>
    intro pos tdata start hdvd hs ys cs res fin hP hres
    rw [buildTilesGo_zero, List.zip_nil_left, processTiles_nil_eq] at hP
    obtain ⟨h1, h3⟩ := hempty pos start ys cs res fin hP
    have hst : start ≤ top := le_trans hs (min_le_right _ _)
    exact ⟨h1, by omega, Or.inl ⟨by rw [buildTilesGo_zero, List.zip_nil_left], h3⟩⟩
  | succ rem ih =>
    intro pos tdata start hdvd hs ys cs res fin hP hres
    rw [buildTilesGo_succ] at hP
    by_cases htop : top ≤ pos
    · rw [if_pos htop, List.zip_nil_left, processTiles_nil_eq] at hP
      obtain ⟨h1, h3⟩ := hempty pos start ys cs res fin hP
      have hst : start ≤ top := le_trans hs (min_le_right _ _)
      refine ⟨h1, by omega, Or.inl ⟨?_, h3⟩⟩
      rw [buildTilesGo_succ, if_pos htop, List.zip_nil_left]
    · rw [if_neg htop] at hP
      have hm1 : pos < min (pos + TileWidth) top := lt_min (by omega) (by omega)
      have hm2 : min (pos + TileWidth) top ≤ pos + TileWidth := min_le_left _ _
      have hm3 : min (pos + TileWidth) top ≤ top := min_le_right _ _
      have hmono : min (pos + TileWidth) top ≤ min (pos + TileWidth + TileWidth) top :=
        min_le_min (by omega) (Nat.le_refl top)
      have hm2n : min (pos + TileWidth + TileWidth) top ≤ pos + TileWidth + TileWidth :=
        min_le_left _ _
      cases tdata with
      | nil =>
        rw [List.zip_nil_right, processTiles_nil_eq] at hP
        obtain ⟨h1, h3⟩ := hempty pos start ys cs res fin hP
        refine ⟨h1, by omega, Or.inl ⟨?_, h3⟩⟩
        rw [buildTilesGo_succ, if_neg htop, List.zip_nil_right]
      | cons d tdata2 =>
        rw [List.zip_cons_cons, processTiles_cons_eq] at hP
        rw [builtTile_N_toNat, builtTile_W_toNat, Nat.div_mul_cancel hdvd] at hP
        simp only [] at hP
        cases hr : (cutTileLoop cut hashes base start (pos / TileWidth) pos
            (min (pos + TileWidth) top - pos) d).2.2 with
        | some e =>
          rw [hr] at hP
          simp only [] at hP
          obtain ⟨-, -, h3, -⟩ :
              (cutTileLoop cut hashes base start (pos / TileWidth) pos
                (min (pos + TileWidth) top - pos) d).1 = ys ∧
              (cutTileLoop cut hashes base start (pos / TileWidth) pos
                (min (pos + TileWidth) top - pos) d).2.1 = cs ∧
              some e = res ∧ start = fin := by simpa using hP
          rw [← h3] at hres
          simp at hres
        | none =>
          rw [hr] at hP
          simp only [] at hP
          obtain ⟨hys, -, hrf⟩ :
              (cutTileLoop cut hashes base start (pos / TileWidth) pos
                  (min (pos + TileWidth) top - pos) d).1 ++
                (processTiles cut hashes base
                  ((buildTilesGo top (pos + TileWidth) rem).zip tdata2)
                  (pos + (min (pos + TileWidth) top - pos))).1 = ys ∧
              _ = cs ∧
              (processTiles cut hashes base
                  ((buildTilesGo top (pos + TileWidth) rem).zip tdata2)
                  (pos + (min (pos + TileWidth) top - pos))).2.2 = (res, fin) := by
            simpa using hP
          have hres2 : (processTiles cut hashes base
              ((buildTilesGo top (pos + TileWidth) rem).zip tdata2)
              (pos + (min (pos + TileWidth) top - pos))).2.2.1 = res := by rw [hrf]
          have hfin : (processTiles cut hashes base
              ((buildTilesGo top (pos + TileWidth) rem).zip tdata2)
              (pos + (min (pos + TileWidth) top - pos))).2.2.2 = fin := by rw [hrf]
          have hq := ih (pos + TileWidth) tdata2
            (pos + (min (pos + TileWidth) top - pos))
            (Dvd.dvd.add hdvd dvd_rfl) (by omega)
            (processTiles cut hashes base
              ((buildTilesGo top (pos + TileWidth) rem).zip tdata2)
              (pos + (min (pos + TileWidth) top - pos))).1
            (processTiles cut hashes base
              ((buildTilesGo top (pos + TileWidth) rem).zip tdata2)
              (pos + (min (pos + TileWidth) top - pos))).2.1
            (processTiles cut hashes base
              ((buildTilesGo top (pos + TileWidth) rem).zip tdata2)
              (pos + (min (pos + TileWidth) top - pos))).2.2.1
            (processTiles cut hashes base
              ((buildTilesGo top (pos + TileWidth) rem).zip tdata2)
              (pos + (min (pos + TileWidth) top - pos))).2.2.2
            rfl (by rw [hres2]; exact hres)
          obtain ⟨hchar_q, htop_q, hdisj_q⟩ := hq
          rw [hfin] at htop_q hchar_q hdisj_q
          have hrfst := cutTileLoop_clean_fst cut hashes base start (pos / TileWidth)
            (min (pos + TileWidth) top - pos) pos d hr
          refine ⟨?_, htop_q, ?_⟩
          · rw [← hys, List.map_append, hrfst, hchar_q]
            rcases hdisj_q with ⟨-, hfq⟩ | ⟨hge, hdv⟩
            · rw [show fin - (pos + TileWidth) = 0 from by omega]
              rw [show List.range' (pos + TileWidth) 0 = ([] : List Nat) from rfl,
                List.filter_nil, List.append_nil]
              rw [show fin - pos = min (pos + TileWidth) top - pos from by omega]
            · by_cases hcmp : pos + TileWidth ≤ fin
              · have hc1 : min (pos + TileWidth) top = pos + TileWidth :=
                  min_eq_left (by omega)
                rw [hc1] at hs ⊢
                rw [Nat.add_sub_cancel_left]
                rw [filter_range'_all (pos + TileWidth) (fin - (pos + TileWidth))
                  (pos + TileWidth) (Nat.le_refl _)]
                rw [show fin - pos = TileWidth + (fin - (pos + TileWidth)) from by omega,
                  range'_split, List.filter_append]
                rw [filter_range'_all (pos + TileWidth) (fin - (pos + TileWidth))
                  start (by omega)]
              · have hfq : fin = top := by omega
                have hMfin : min (pos + TileWidth) top = fin := by
                  rcases min_choice (pos + TileWidth) top with h | h <;> omega
                rw [show fin - (pos + TileWidth) = 0 from by omega]
                rw [show List.range' (pos + TileWidth) 0 = ([] : List Nat) from rfl,
                  List.filter_nil, List.append_nil]
                rw [hMfin]
          · rcases hdisj_q with ⟨-, hfq⟩ | ⟨hge, hdv⟩
            · refine Or.inr ⟨by omega, ?_⟩
              by_cases hc : pos + TileWidth ≤ top
              · refine Or.inl ?_
                rw [hfq, show pos + (min (pos + TileWidth) top - pos) = pos + TileWidth
                  from by rw [min_eq_left hc]; omega]
                exact Dvd.dvd.add hdvd dvd_rfl
              · refine Or.inr ?_
                have h5 : min (pos + TileWidth) top = top := min_eq_right (by omega)
                omega
            · exact Or.inr ⟨by omega, hdv⟩

lemma cutTileLoop_err_not_fuel (cut : CutFn) (hashes : List Hash)
    (base start tileN : Nat) :
    ∀ (count i : Nat) (data : ByteStr) (e : EntriesError),
      (cutTileLoop cut hashes base start tileN i count data).2.2 = some e →
      e ≠ EntriesError.outOfFuel := by
  intro count
  induction count with
  | zero =>
    intro i data e h
    rw [cutTileLoop_zero_eq] at h
    split at h
    · simp at h
    · cases h
      simp
  | succ n ih =>
    intro i data e h
    rw [cutTileLoop_succ_eq] at h
    by_cases hd : data = []
    · rw [if_pos hd] at h
      cases h
      simp
    · rw [if_neg hd] at h
      cases hc : cut data with
      | error msg =>
        rw [hc] at h
        cases h
        simp
      | ok out =>
        obtain ⟨entry, rh, rest⟩ := out
        rw [hc] at h
        simp only [] at h
        by_cases hrh : rh ≠ hashes.getD (i - base) 0
        · rw [if_pos hrh] at h
          cases h
          simp
        · rw [if_neg hrh] at h
          simp only [] at h
          exact ih (i + 1) rest e h

lemma processTiles_build_err (cut : CutFn) (hashes : List Hash) (base top : Nat) :
    ∀ (rem pos : Nat) (tdata : List ByteStr) (start : Nat),
      TileWidth ∣ pos →
      ∀ ys cs res fin (e : EntriesError),
        processTiles cut hashes base ((buildTilesGo top pos rem).zip tdata) start =
          (ys, cs, res, fin) →
        res = some e →
        e ≠ EntriesError.outOfFuel ∧
        pos ≤ failIndex e ∧ ∀ q ∈ ys, q.1 < failIndex e := by
  have hW : 0 < TileWidth := tileWidth_pos
  have hcontra : ∀ (start : Nat) (ys : List (Nat × ByteStr)) (cs : List ByteStr)
      (res : Option EntriesError) (fin : Nat) (e : EntriesError),
      ([], [], none, start) = ((ys, cs, res, fin) :
        List (Nat × ByteStr) × List ByteStr × Option EntriesError × Nat) →
      res = some e → False := by
    intro start ys cs res fin e hP hres
    have h3 := congrArg (fun p => p.2.2.1) hP
    simp only [] at h3
    rw [← h3] at hres
    simp at hres
  intro rem
  induction rem with
  | zero =>
    intro pos tdata start hdvd ys cs res fin e hP hres
    rw [buildTilesGo_zero, List.zip_nil_left, processTiles_nil_eq] at hP
    exact absurd hres (fun h => hcontra start ys cs res fin e hP h)
  | succ rem ih =>
    intro pos tdata start hdvd ys cs res fin e hP hres
    rw [buildTilesGo_succ] at hP
    by_cases htop : top ≤ pos
    · rw [if_pos htop, List.zip_nil_left, processTiles_nil_eq] at hP
      exact absurd hres (fun h => hcontra start ys cs res fin e hP h)
    · rw [if_neg htop] at hP
      have hm1 : pos < min (pos + TileWidth) top := lt_min (by omega) (by omega)
      have hm2 : min (pos + TileWidth) top ≤ pos + TileWidth := min_le_left _ _
      cases tdata with
      | nil =>
        rw [List.zip_nil_right, processTiles_nil_eq] at hP
        exact absurd hres (fun h => hcontra start ys cs res fin e hP h)
      | cons d tdata2 =>
        rw [List.zip_cons_cons, processTiles_cons_eq] at hP
        rw [builtTile_N_toNat, builtTile_W_toNat, Nat.div_mul_cancel hdvd] at hP
        simp only [] at hP
        cases hr : (cutTileLoop cut hashes base start (pos / TileWidth) pos
            (min (pos + TileWidth) top - pos) d).2.2 with
        | some e2 =>
          rw [hr] at hP
          simp only [] at hP
          obtain ⟨hys, -, h3, -⟩ :
              (cutTileLoop cut hashes base start (pos / TileWidth) pos
                (min (pos + TileWidth) top - pos) d).1 = ys ∧
              (cutTileLoop cut hashes base start (pos / TileWidth) pos
                (min (pos + TileWidth) top - pos) d).2.1 = cs ∧
              some e2 = res ∧ start = fin := by simpa using hP
          rw [← h3] at hres
          have he2 : e2 = e := Option.some.inj hres
          subst he2
          have hb := cutTileLoop_err_bound cut hashes base start (pos / TileWidth)
            (min (pos + TileWidth) top - pos) pos d e2 hr
          have hnf := cutTileLoop_err_not_fuel cut hashes base start (pos / TileWidth)
            (min (pos + TileWidth) top - pos) pos d e2 hr
          refine ⟨hnf, hb.1, fun q hq => ?_⟩
          rw [← hys] at hq
          exact hb.2 q hq
        | none =>
          rw [hr] at hP
          simp only [] at hP
          obtain ⟨hys, -, hrf⟩ :
              (cutTileLoop cut hashes base start (pos / TileWidth) pos
                  (min (pos + TileWidth) top - pos) d).1 ++
                (processTiles cut hashes base
                  ((buildTilesGo top (pos + TileWidth) rem).zip tdata2)
                  (pos + (min (pos + TileWidth) top - pos))).1 = ys ∧
              _ = cs ∧
              (processTiles cut hashes base
                  ((buildTilesGo top (pos + TileWidth) rem).zip tdata2)
                  (pos + (min (pos + TileWidth) top - pos))).2.2 = (res, fin) := by
            simpa using hP
          have hres2 : (processTiles cut hashes base
              ((buildTilesGo top (pos + TileWidth) rem).zip tdata2)
              (pos + (min (pos + TileWidth) top - pos))).2.2.1 = res := by rw [hrf]
          obtain ⟨hq0, hq1, hq2⟩ := ih (pos + TileWidth) tdata2
            (pos + (min (pos + TileWidth) top - pos))
            (Dvd.dvd.add hdvd dvd_rfl)
            (processTiles cut hashes base
              ((buildTilesGo top (pos + TileWidth) rem).zip tdata2)
              (pos + (min (pos + TileWidth) top - pos))).1
            (processTiles cut hashes base
              ((buildTilesGo top (pos + TileWidth) rem).zip tdata2)
              (pos + (min (pos + TileWidth) top - pos))).2.1
            (processTiles cut hashes base
              ((buildTilesGo top (pos + TileWidth) rem).zip tdata2)
              (pos + (min (pos + TileWidth) top - pos))).2.2.1
            (processTiles cut hashes base
              ((buildTilesGo top (pos + TileWidth) rem).zip tdata2)
              (pos + (min (pos + TileWidth) top - pos))).2.2.2
            e rfl (by rw [hres2]; exact hres)
          have hmem := cutTileLoop_clean_mem_bound cut hashes base start
            (pos / TileWidth) (min (pos + TileWidth) top - pos) pos d hr
          refine ⟨hq0, by omega, fun q hq => ?_⟩
          rw [← hys] at hq
          rcases List.mem_append.mp hq with hm | hm
          · have hbd := hmem q hm
            omega
          · exact hq2 q hm

lemma processTiles_build_auth (cut : CutFn) (hashes : List Hash) (base top : Nat)
    (recordHash : ByteStr → Hash) (lh : Nat → Hash)
    (hcut : ∀ d entry rh rest, cut d = .ok (entry, rh, rest) → rh = recordHash entry) :
    ∀ (rem pos : Nat) (tdata : List ByteStr) (start : Nat),
      TileWidth ∣ pos →
      (∀ k, pos ≤ k → k < pos + rem * TileWidth → k < top →
        hashes.getD (k - base) 0 = lh k) →
      ∀ q ∈ (processTiles cut hashes base ((buildTilesGo top pos rem).zip tdata) start).1,
        recordHash q.2 = lh q.1 := by
  have hW : 0 < TileWidth := tileWidth_pos
  intro rem
  induction rem with
  | zero =>
    intro pos tdata start hdvd hh q hq
    rw [buildTilesGo_zero, List.zip_nil_left, processTiles_nil_eq] at hq
    simp at hq
  | succ rem ih =>
    intro pos tdata start hdvd hh q hq
    have harith : (rem + 1) * TileWidth = rem * TileWidth + TileWidth :=
      Nat.succ_mul rem TileWidth
    rw [buildTilesGo_succ] at hq
    by_cases htop : top ≤ pos
    · rw [if_pos htop, List.zip_nil_left, processTiles_nil_eq] at hq
      simp at hq
    · rw [if_neg htop] at hq
      have hm1 : pos < min (pos + TileWidth) top := lt_min (by omega) (by omega)
      have hm2 : min (pos + TileWidth) top ≤ pos + TileWidth := min_le_left _ _
      have hm3 : min (pos + TileWidth) top ≤ top := min_le_right _ _
      cases tdata with
      | nil =>
        rw [List.zip_nil_right, processTiles_nil_eq] at hq
        simp at hq
      | cons d tdata2 =>
        rw [List.zip_cons_cons, processTiles_cons_eq] at hq
        rw [builtTile_N_toNat, builtTile_W_toNat, Nat.div_mul_cancel hdvd] at hq
        simp only [] at hq
        have hauth := cutTileLoop_auth cut hashes base start (pos / TileWidth)
          recordHash lh hcut (min (pos + TileWidth) top - pos) pos d
          (fun k hk1 hk2 => hh k (by omega) (by omega) (by omega))
        have hrec := ih (pos + TileWidth) tdata2
          (pos + (min (pos + TileWidth) top - pos))
          (Dvd.dvd.add hdvd dvd_rfl)
          (fun k hk1 hk2 hk3 => hh k (by omega) (by omega) hk3)
        cases hr : (cutTileLoop cut hashes base start (pos / TileWidth) pos
            (min (pos + TileWidth) top - pos) d).2.2 with
        | some e2 =>
          rw [hr] at hq
          simp only [] at hq
          exact hauth q hq
        | none =>
          rw [hr] at hq
          simp only [] at hq
          rcases List.mem_append.mp hq with hm | hm
          · exact hauth q hm
          · exact hrec q hm

lemma batchIndexes_cons (t : Tile) (rest : List Tile) :
    batchIndexes (t :: rest) =
      ((List.range t.W.toNat).map fun i =>
        storedHashIndex0 (t.N.toNat * TileWidth + i)) ++ batchIndexes rest := rfl

lemma map_shi_range (pos n : Nat) :
    (List.range n).map (fun i => storedHashIndex0 (pos + i)) =
      (List.range' pos n).map storedHashIndex0 := by
  rw [List.range'_eq_map_range, List.map_map]
  rfl

lemma batchIndexes_build (top : Nat) :
    ∀ (rem pos : Nat), TileWidth ∣ pos →
      batchIndexes (buildTilesGo top pos rem) =
        (List.range' pos (min (pos + rem * TileWidth) top - pos)).map
          storedHashIndex0 := by
  have hW : 0 < TileWidth := tileWidth_pos
  intro rem
  induction rem with
  | zero =>
    intro pos hdvd
    rw [buildTilesGo_zero]
    have hle : min (pos + 0 * TileWidth) top ≤ pos := by
      have := min_le_left (pos + 0 * TileWidth) top
      omega
    rw [show min (pos + 0 * TileWidth) top - pos = 0 from by omega]
    rfl
  | succ rem ih =>
    intro pos hdvd
    have harith : (rem + 1) * TileWidth = rem * TileWidth + TileWidth :=
      Nat.succ_mul rem TileWidth
    rw [buildTilesGo_succ]
    by_cases htop : top ≤ pos
    · rw [if_pos htop]
      have hle : min (pos + (rem + 1) * TileWidth) top ≤ pos :=
        le_trans (min_le_right _ _) htop
      rw [show min (pos + (rem + 1) * TileWidth) top - pos = 0 from by omega]
      rfl
    · rw [if_neg htop, batchIndexes_cons]
      simp only [builtTile_N_toNat, builtTile_W_toNat, Int.toNat_ofNat,
        Nat.div_mul_cancel hdvd]
      rw [map_shi_range, ih (pos + TileWidth) (Dvd.dvd.add hdvd dvd_rfl)]
      by_cases hc : pos + TileWidth ≤ top
      · have hc1 : min (pos + TileWidth) top = pos + TileWidth := min_eq_left hc
        have hminEq : min (pos + TileWidth + rem * TileWidth) top =
            min (pos + (rem + 1) * TileWidth) top := by
          rw [show pos + TileWidth + rem * TileWidth = pos + (rem + 1) * TileWidth
            from by omega]
        have hge : pos + TileWidth ≤ min (pos + TileWidth + rem * TileWidth) top :=
          le_min (by omega) hc
        rw [hc1, Nat.add_sub_cancel_left, hminEq] at *
        rw [show min (pos + (rem + 1) * TileWidth) top - pos =
          TileWidth + (min (pos + (rem + 1) * TileWidth) top - (pos + TileWidth))
          from by omega]
        rw [range'_split, List.map_append]
      · have hc1 : min (pos + TileWidth) top = top := min_eq_right (by omega)
        have hc2 : min (pos + (rem + 1) * TileWidth) top = top :=
          min_eq_right (by omega)
        have hc3 : min (pos + TileWidth + rem * TileWidth) top = top :=
          min_eq_right (by omega)
        rw [hc1, hc2, hc3]
        rw [show top - (pos + TileWidth) = 0 from by omega]
        rw [show List.range' (pos + TileWidth) 0 = ([] : List Nat) from rfl]
        rw [show (([] : List Nat)).map storedHashIndex0 = ([] : List Nat) from rfl,
          List.append_nil]

lemma buildTilesGo_nil_iff (top pos rem : Nat) :
    buildTilesGo top pos (rem + 1) = [] ↔ top ≤ pos := by
  rw [buildTilesGo_succ]
  by_cases h : top ≤ pos
  · simp [h]
  · simp [h]

lemma batch_arith (treeN start : Nat) (hstart : start ≤ treeN) :
    start / TileWidth * TileWidth ≤ start ∧
    start < start / TileWidth * TileWidth + TileWidth ∧
    start / TileWidth * TileWidth ≤ treeN / TileWidth * TileWidth ∧
    treeN / TileWidth * TileWidth ≤ treeN ∧
    treeN < treeN / TileWidth * TileWidth + TileWidth ∧
    ((treeN / TileWidth * TileWidth = start / TileWidth * TileWidth) ↔
      treeN / TileWidth * TileWidth ≤ start) ∧
    (start / TileWidth * TileWidth < treeN / TileWidth * TileWidth →
      start / TileWidth * TileWidth + TileWidth ≤ treeN / TileWidth * TileWidth) := by
  have hW : 0 < TileWidth := tileWidth_pos
  have h1 : TileWidth * (start / TileWidth) + start % TileWidth = start :=
    Nat.div_add_mod start TileWidth
  have h1m : start / TileWidth * TileWidth = TileWidth * (start / TileWidth) :=
    Nat.mul_comm _ _
  have h2 : start % TileWidth < TileWidth := Nat.mod_lt _ hW
  have h3 : TileWidth * (treeN / TileWidth) + treeN % TileWidth = treeN :=
    Nat.div_add_mod treeN TileWidth
  have h3m : treeN / TileWidth * TileWidth = TileWidth * (treeN / TileWidth) :=
    Nat.mul_comm _ _
  have h4 : treeN % TileWidth < TileWidth := Nat.mod_lt _ hW
  have h5 : start / TileWidth ≤ treeN / TileWidth := Nat.div_le_div_right hstart
  have h6 : start / TileWidth * TileWidth ≤ treeN / TileWidth * TileWidth :=
    Nat.mul_le_mul h5 (Nat.le_refl TileWidth)
  refine ⟨by omega, by omega, h6, by omega, by omega, ⟨by omega, ?_⟩, ?_⟩
  · intro h
    have h7 : treeN / TileWidth * TileWidth / TileWidth ≤ start / TileWidth :=
      Nat.div_le_div_right h
    rw [Nat.mul_div_cancel _ hW] at h7
    have h8 : treeN / TileWidth * TileWidth ≤ start / TileWidth * TileWidth :=
      Nat.mul_le_mul h7 (Nat.le_refl TileWidth)
    omega
  · intro h
    have hd : TileWidth ∣ treeN / TileWidth * TileWidth - start / TileWidth * TileWidth :=
      Nat.dvd_sub' (dvd_mul_left _ _) (dvd_mul_left _ _)
    have := Nat.le_of_dvd (by omega) hd
    omega

lemma entriesBatch_clean (env : EntriesEnv) (treeN start : Nat)
    (hstart : start ≤ treeN)
    (hlen : ∀ tiles tdata, env.readTiles tiles = Except.ok tdata →
      tdata.length = tiles.length) :
    (∀ next, (entriesBatch env treeN start).2 = some next →
      (entriesBatch env treeN start).1.err = none ∧
      (entriesBatch env treeN start).1.yields.map Prod.fst =
        List.range' start (next - start) ∧
      start < next ∧ TileWidth ∣ next ∧
      next < treeN / TileWidth * TileWidth) ∧
    ((entriesBatch env treeN start).2 = none →
      (entriesBatch env treeN start).1.err = none →
      (entriesBatch env treeN start).1.yields.map Prod.fst =
        List.range' start (emitEnd treeN start - start)) := by
  have hW : 0 < TileWidth := tileWidth_pos
  obtain ⟨hA1, hA2, hA3, hA4, hA5, hA6, hA7⟩ := batch_arith treeN start hstart
  have hdvdB : TileWidth ∣ start / TileWidth * TileWidth := dvd_mul_left _ _
  have hTop_emit : (if treeN / TileWidth * TileWidth = start / TileWidth * TileWidth
      then treeN else treeN / TileWidth * TileWidth) = emitEnd treeN start := by
    unfold emitEnd
    by_cases hc : treeN / TileWidth * TileWidth ≤ start
    · rw [if_pos (hA6.mpr hc), if_pos hc]
    · rw [if_neg (fun h => hc (hA6.mp h)), if_neg hc]
  simp only [entriesBatch, buildTiles]
  set B := start / TileWidth * TileWidth with hB
  set Q := treeN / TileWidth * TileWidth with hQ
  set T := if Q = B then treeN else Q with hT
  by_cases htl : buildTilesGo T B 50 = []
  · rw [if_pos htl]
    refine ⟨fun next h => by simp at h, fun _ _ => ?_⟩
    have htop_le : T ≤ B := (buildTilesGo_nil_iff T B 49).mp htl
    by_cases hQB : Q = B
    · rw [hT, if_pos hQB] at htop_le
      have hE : emitEnd treeN start = start := by
        unfold emitEnd
        rw [← hQ, if_pos (by omega)]
        omega
      rw [hE, Nat.sub_self]
      rfl
    · rw [hT, if_neg hQB] at htop_le
      exact absurd (show Q = B from by omega) hQB
  · rw [if_neg htl]
    have hBltT : B < T := by
      by_contra hc
      exact htl ((buildTilesGo_nil_iff T B 49).mpr (by omega))
    have hsT : start ≤ T := by
      by_cases hQB : Q = B
      · rw [hT, if_pos hQB]
        exact hstart
      · rw [hT, if_neg hQB]
        have := hA7 (by omega)
        omega
    have hsmin : start ≤ min (B + TileWidth) T := le_min (by omega) hsT
    cases hrt : env.readTiles (buildTilesGo T B 50) with
    | error msg =>
      exact ⟨fun next h => by simp at h, fun _ herr => by simp at herr⟩
    | ok tdata =>
      simp only []
      cases hrh : env.readHashes (batchIndexes (buildTilesGo T B 50)) with
      | error msg =>
        exact ⟨fun next h => by simp at h, fun _ herr => by simp at herr⟩
      | ok hashes =>
        simp only []
        set p := processTiles env.cut hashes B ((buildTilesGo T B 50).zip tdata) start
          with hp
        cases hpr : p.2.2.1 with
        | some e =>
          exact ⟨fun next h => by simp at h, fun _ herr => by simp at herr⟩
        | none =>
          simp only []
          obtain ⟨hchar, hfinle, hdisj⟩ := processTiles_build_clean env.cut hashes B T
            50 B tdata start hdvdB hsmin p.1 p.2.1 none p.2.2.2
            (by rw [← hp, ← hpr]) rfl
          have hzip_ne : (buildTilesGo T B 50).zip tdata ≠ [] := by
            intro hzip
            have hlentd := hlen (buildTilesGo T B 50) tdata hrt
            have hzl := congrArg List.length hzip
            rw [List.length_zip, hlentd, min_self] at hzl
            exact htl (List.eq_nil_of_length_eq_zero hzl)
          obtain ⟨hge, hdv⟩ : min (B + TileWidth) T ≤ p.2.2.2 ∧
              (TileWidth ∣ p.2.2.2 ∨ p.2.2.2 = T) := by
            rcases hdisj with ⟨hzip, -⟩ | h
            · exact absurd hzip hzip_ne
            · exact h
          have hstart_fin : start ≤ p.2.2.2 := le_trans hsmin hge
          have hchain : p.1.map Prod.fst = List.range' start (p.2.2.2 - start) := by
            rw [hchar, filter_range'_mid B (p.2.2.2 - B) start hA1 (by omega)]
            rw [show B + (p.2.2.2 - B) - start = p.2.2.2 - start from by omega]
          by_cases hstop : p.2.2.2 = T
          · rw [if_pos hstop]
            refine ⟨fun next h => by simp at h, fun _ _ => ?_⟩
            show p.1.map Prod.fst = _
            rw [hchain, hstop, hTop_emit]
          · rw [if_neg hstop]
            refine ⟨fun next h => ?_, fun hcn _ => by simp at hcn⟩
            have hnext : p.2.2.2 = next := by simpa using h
            subst hnext
            refine ⟨rfl, ?_, ?_, ?_, ?_⟩
            · show p.1.map Prod.fst = _
              exact hchain
            · by_cases hsTeq : start = T
              · exfalso
                have hmr : min (B + TileWidth) T = T := min_eq_right (by omega)
                omega
              · have hsTlt : start < T := by omega
                have hlb := lt_min (show start < B + TileWidth from by omega) hsTlt
                omega
            · rcases hdv with h2 | h2
              · exact h2
              · exact absurd h2 hstop
            · by_cases hQB : Q = B
              · exfalso
                rw [hT, if_pos hQB] at hge hfinle hstop
                have hm2 : min (B + TileWidth) treeN ≤ B + TileWidth := min_le_left _ _
                have hmr : min (B + TileWidth) treeN = treeN := min_eq_right (by omega)
                omega
              · rw [hT, if_neg hQB] at hfinle hstop
                omega

lemma entriesBatch_err (env : EntriesEnv) (treeN start : Nat) (e : EntriesError)
    (herr : (entriesBatch env treeN start).1.err = some e) :
    e ≠ EntriesError.outOfFuel ∧
    start / TileWidth * TileWidth ≤ failIndex e ∧
    ∀ q ∈ (entriesBatch env treeN start).1.yields, q.1 < failIndex e := by
  have hdvdB : TileWidth ∣ start / TileWidth * TileWidth := dvd_mul_left _ _
  simp only [entriesBatch, buildTiles] at herr ⊢
  set B := start / TileWidth * TileWidth with hB
  set Q := treeN / TileWidth * TileWidth with hQ
  set T := if Q = B then treeN else Q with hT
  by_cases htl : buildTilesGo T B 50 = []
  · rw [if_pos htl] at herr
    simp at herr
  · rw [if_neg htl] at herr ⊢
    cases hrt : env.readTiles (buildTilesGo T B 50) with
    | error msg =>
      rw [hrt] at herr
      simp only [] at herr ⊢
      have he : EntriesError.tileRead B msg = e := by simpa using herr
      subst he
      exact ⟨by simp, Nat.le_refl _, by simp⟩
    | ok tdata =>
      rw [hrt] at herr
      simp only [] at herr ⊢
      cases hrh : env.readHashes (batchIndexes (buildTilesGo T B 50)) with
      | error msg =>
        rw [hrh] at herr
        simp only [] at herr ⊢
        have he : EntriesError.hashRead B msg = e := by simpa using herr
        subst he
        exact ⟨by simp, Nat.le_refl _, by simp⟩
      | ok hashes =>
        rw [hrh] at herr
        simp only [] at herr ⊢
        set p := processTiles env.cut hashes B ((buildTilesGo T B 50).zip tdata) start
          with hp
        cases hpr : p.2.2.1 with
        | some e2 =>
          rw [hpr] at herr
          simp only [] at herr ⊢
          have he : e2 = e := by simpa using herr
          subst he
          obtain ⟨hnf, hbase, hyd⟩ := processTiles_build_err env.cut hashes B T
            50 B tdata start hdvdB p.1 p.2.1 (some e2) p.2.2.2 e2
            (by rw [← hp, ← hpr]) rfl
          exact ⟨hnf, hbase, fun q hq => hyd q hq⟩
        | none =>
          rw [hpr] at herr
          simp only [] at herr
          by_cases hstop : p.2.2.2 = T
          · rw [if_pos hstop] at herr
            simp at herr
          · rw [if_neg hstop] at herr
            simp at herr

lemma entriesBatch_auth (env : EntriesEnv) (treeN start : Nat)
    (recordHash : ByteStr → Hash) (ah : Nat → Hash)
    (hcut : ∀ d entry rh rest, env.cut d = Except.ok (entry, rh, rest) →
      rh = recordHash entry)
    (hrd : ∀ l hs, env.readHashes l = Except.ok hs → hs = l.map ah) :
    ∀ q ∈ (entriesBatch env treeN start).1.yields,
      recordHash q.2 = ah (storedHashIndex0 q.1) := by
  have hW : 0 < TileWidth := tileWidth_pos
  have hdvdB : TileWidth ∣ start / TileWidth * TileWidth := dvd_mul_left _ _
  intro q hq
  simp only [entriesBatch, buildTiles] at hq
  set B := start / TileWidth * TileWidth with hB
  set Q := treeN / TileWidth * TileWidth with hQ
  set T := if Q = B then treeN else Q with hT
  by_cases htl : buildTilesGo T B 50 = []
  · rw [if_pos htl] at hq
    simp at hq
  · rw [if_neg htl] at hq
    have hBltT : B < T := by
      by_contra hc
      exact htl ((buildTilesGo_nil_iff T B 49).mpr (by omega))
    cases hrt : env.readTiles (buildTilesGo T B 50) with
    | error msg =>
      rw [hrt] at hq
      simp at hq
    | ok tdata =>
      rw [hrt] at hq
      simp only [] at hq
      cases hrh : env.readHashes (batchIndexes (buildTilesGo T B 50)) with
      | error msg =>
        rw [hrh] at hq
        simp at hq
      | ok hashes =>
        rw [hrh] at hq
        simp only [] at hq
        have hhs := hrd _ _ hrh
        rw [batchIndexes_build T 50 B hdvdB] at hhs
        have h50 : 0 < 50 * TileWidth := Nat.mul_pos (by omega) hW
        have hh : ∀ k, B ≤ k → k < B + 50 * TileWidth → k < T →
            hashes.getD (k - B) 0 = ah (storedHashIndex0 k) := by
          intro k hk1 hk2 hk3
          have hBmin : B < min (B + 50 * TileWidth) T := lt_min (by omega) hBltT
          rw [hhs, List.map_map]
          exact getD_map_range' (ah ∘ storedHashIndex0)
            (min (B + 50 * TileWidth) T - B) B k hk1
            (by have := lt_min hk2 hk3; omega)
        have hauthp := processTiles_build_auth env.cut hashes B T recordHash
          (fun k => ah (storedHashIndex0 k)) hcut 50 B tdata start hdvdB hh
        set p := processTiles env.cut hashes B ((buildTilesGo T B 50).zip tdata) start
          with hp
        cases hpr : p.2.2.1 with
        | some e2 =>
          rw [hpr] at hq
          simp only [] at hq
          exact hauthp q hq
        | none =>
          rw [hpr] at hq
          simp only [] at hq
          by_cases hstop : p.2.2.2 = T
          · rw [if_pos hstop] at hq
            exact hauthp q hq
          · rw [if_neg hstop] at hq
            exact hauthp q hq

lemma entriesGo_zero (env : EntriesEnv) (treeN start : Nat) :
    entriesGo env treeN start 0 = ⟨[], [], some .outOfFuel⟩ := rfl

lemma entriesGo_succ (env : EntriesEnv) (treeN start fuel : Nat) :
    entriesGo env treeN start (fuel + 1) =
      match entriesBatch env treeN start with
      | (r, none) => r
      | (r, some next) =>
        ⟨r.yields ++ (entriesGo env treeN next fuel).yields,
         r.cutCalls ++ (entriesGo env treeN next fuel).cutCalls,
         (entriesGo env treeN next fuel).err⟩ := rfl

lemma entriesGo_clean (env : EntriesEnv) (treeN : Nat)
    (hlen : ∀ tiles tdata, env.readTiles tiles = Except.ok tdata →
      tdata.length = tiles.length) :
    ∀ (fuel start : Nat), start ≤ treeN →
      (entriesGo env treeN start fuel).err = none →
      (entriesGo env treeN start fuel).yields.map Prod.fst =
        List.range' start (emitEnd treeN start - start) := by
  intro fuel
  induction fuel with
  | zero =>
    intro start hstart h
    rw [entriesGo_zero] at h
    simp at h
  | succ fuel ih =>
    intro start hstart h
    rw [entriesGo_succ] at h ⊢
    rcases hb : entriesBatch env treeN start with ⟨r, cont⟩
    rw [hb] at h
    obtain ⟨hcontl, hstopl⟩ := entriesBatch_clean env treeN start hstart hlen
    rw [hb] at hcontl hstopl
    cases cont with
    | none =>
      simp only [] at h ⊢
      exact hstopl rfl h
    | some next =>
      simp only [] at h ⊢
      obtain ⟨hrerr, hryields, hlt, hdvd, hltQ⟩ := hcontl next rfl
      simp only [] at hryields
      have hnextle : next ≤ treeN := by
        have h1 : treeN / TileWidth * TileWidth ≤ treeN := Nat.div_mul_le_self _ _
        omega
      have hq := ih next hnextle h
      rw [List.map_append, hryields, hq]
      have hE1 : emitEnd treeN start = treeN / TileWidth * TileWidth := by
        unfold emitEnd
        rw [if_neg (by omega)]
      have hE2 : emitEnd treeN next = treeN / TileWidth * TileWidth := by
        unfold emitEnd
        rw [if_neg (by omega)]
      rw [hE1, hE2]
      rw [show treeN / TileWidth * TileWidth - start =
        (next - start) + (treeN / TileWidth * TileWidth - next) from by omega,
        range'_split, show start + (next - start) = next from by omega]

lemma entriesGo_err (env : EntriesEnv) (treeN : Nat)
    (hlen : ∀ tiles tdata, env.readTiles tiles = Except.ok tdata →
      tdata.length = tiles.length) :
    ∀ (fuel start : Nat) (e : EntriesError), start ≤ treeN →
      treeN + 1 ≤ fuel + start →
      (entriesGo env treeN start fuel).err = some e →
      e ≠ EntriesError.outOfFuel ∧
      start / TileWidth * TileWidth ≤ failIndex e ∧
      ∀ q ∈ (entriesGo env treeN start fuel).yields, q.1 < failIndex e := by
  intro fuel
  induction fuel with
  | zero =>
    intro start e hstart hfuel h
    omega
  | succ fuel ih =>
    intro start e hstart hfuel h
    rw [entriesGo_succ] at h ⊢
    rcases hb : entriesBatch env treeN start with ⟨r, cont⟩
    rw [hb] at h
    cases cont with
    | none =>
      simp only [] at h ⊢
      obtain ⟨hnf, hbase, hyd⟩ := entriesBatch_err env treeN start e
        (by rw [hb]; exact h)
      rw [hb] at hyd
      exact ⟨hnf, hbase, fun q hq => hyd q hq⟩
    | some next =>
      simp only [] at h ⊢
      obtain ⟨hcontl, -⟩ := entriesBatch_clean env treeN start hstart hlen
      rw [hb] at hcontl
      obtain ⟨hrerr, hryields, hlt, hdvd, hltQ⟩ := hcontl next rfl
      simp only [] at hryields
      have hBle : start / TileWidth * TileWidth ≤ start := Nat.div_mul_le_self _ _
      have hnextle : next ≤ treeN := by
        have h1 : treeN / TileWidth * TileWidth ≤ treeN := Nat.div_mul_le_self _ _
        omega
      obtain ⟨hnf, hbase2, hyd2⟩ := ih next e hnextle (by omega) h
      have hnexteq : next / TileWidth * TileWidth = next := Nat.div_mul_cancel hdvd
      refine ⟨hnf, by omega, ?_⟩
      intro q hq
      rcases List.mem_append.mp hq with hm | hm
      · have hqm : q.1 ∈ r.yields.map Prod.fst := List.mem_map_of_mem Prod.fst hm
        rw [hryields, List.mem_range'_1] at hqm
        omega
      · exact hyd2 q hm

lemma entriesGo_auth (env : EntriesEnv) (treeN : Nat)
    (recordHash : ByteStr → Hash) (ah : Nat → Hash)
    (hcut : ∀ d entry rh rest, env.cut d = Except.ok (entry, rh, rest) →
      rh = recordHash entry)
    (hrd : ∀ l hs, env.readHashes l = Except.ok hs → hs = l.map ah) :
    ∀ (fuel start : Nat), ∀ q ∈ (entriesGo env treeN start fuel).yields,
      recordHash q.2 = ah (storedHashIndex0 q.1) := by
  intro fuel
  induction fuel with
  | zero =>
    intro start q hq
    rw [entriesGo_zero] at hq
    simp at hq
  | succ fuel ih =>
    intro start q hq
    rw [entriesGo_succ] at hq
    rcases hb : entriesBatch env treeN start with ⟨r, cont⟩
    rw [hb] at hq
    have hba := entriesBatch_auth env treeN start recordHash ah hcut hrd q
    rw [hb] at hba
    cases cont with
    | none =>
      simp only [] at hq
      exact hba hq
    | some next =>
      simp only [] at hq
      rcases List.mem_append.mp hq with hm | hm
      · exact hba hm
      · exact ih next q hm

/-- C2: for a failure-free run of `Client.Entries` with `0 ≤ start ≤ treeN`
and a tile source honouring the length contract, the yielded indices are
exactly `start, start+1, ..., emitEnd-1` in ascending order with step 1,
where `emitEnd` is the largest multiple of the tile width that is at most
`treeN` unless `start` lies at or beyond it (trailing partial tile), in which
case `emitEnd = treeN`; in particular nothing is yielded when
`start = emitEnd` (and so for `treeN = 0`). -/
theorem entries_yield_range (env : EntriesEnv) (treeN start : Nat)
    (hstart : start ≤ treeN)
    (hlen : ∀ tiles tdata, env.readTiles tiles = Except.ok tdata →
      tdata.length = tiles.length)
    (hclean : (entriesRun env treeN start).err = none) :
    (entriesRun env treeN start).yields.map Prod.fst =
      List.range' start (emitEnd treeN start - start) := by
  unfold entriesRun at hclean ⊢
  exact entriesGo_clean env treeN hlen (treeN + 1) start hstart hclean

/-- Witness for C2: the concrete failure-free run over a 2-entry tree from
`start = 1` yields exactly index 1. -/
theorem entries_yield_range_witness :
    (entriesRun exEnvGood 2 1).yields.map Prod.fst =
      List.range' 1 (emitEnd 2 1 - 1) := by
  exact entries_yield_range exEnvGood 2 1 (by decide)
    (fun tiles tdata h => by
      simp only [exEnvGood] at h
      injection h with h2
      rw [← h2]
      simp)
    (by decide)

/-- C1: with a conforming hash reader (on success it returns the
authenticated hashes, in request order) and a cut function whose returned
record hash is determined by the entry, every yielded entry's record hash
equals the authenticated leaf hash at its index; and when the run fails,
the stashed error is a real failure (never the fuel artifact) and no entry
at or after the failing index was yielded; the error is stashed for
`Client.Err`. -/
theorem entries_authenticated_and_failfast (env : EntriesEnv) (treeN start : Nat)
    (recordHash : ByteStr → Hash) (ah : Nat → Hash)
    (hstart : start ≤ treeN)
    (hlen : ∀ tiles tdata, env.readTiles tiles = Except.ok tdata →
      tdata.length = tiles.length)
    (hcut : ∀ d entry rh rest, env.cut d = Except.ok (entry, rh, rest) →
      rh = recordHash entry)
    (hrd : ∀ l hs, env.readHashes l = Except.ok hs → hs = l.map ah) :
    (∀ q ∈ (entriesRun env treeN start).yields,
      recordHash q.2 = ah (storedHashIndex0 q.1)) ∧
    (∀ e, (entriesRun env treeN start).err = some e →
      e ≠ EntriesError.outOfFuel ∧
      ∀ q ∈ (entriesRun env treeN start).yields, q.1 < failIndex e) ∧
    clientErr (clientEntriesCall ⟨none⟩ env treeN start).2 =
      (entriesRun env treeN start).err := by
  refine ⟨?_, ?_, rfl⟩
  · intro q hq
    exact entriesGo_auth env treeN recordHash ah hcut hrd (treeN + 1) start q hq
  · intro e he
    obtain ⟨hnf, -, hyd⟩ := entriesGo_err env treeN hlen (treeN + 1) start e hstart
      (by omega) he
    exact ⟨hnf, hyd⟩

/-- Witness for C1: the concrete run yields the pair `(1, [0])`, and its
record hash (0) matches the authenticated leaf hash at index 1 (0). -/
theorem entries_authenticated_and_failfast_witness :
    (1, ([0] : ByteStr)) ∈ (entriesRun exEnvGood 2 1).yields ∧
    (fun _ => (0 : Hash)) ((1, ([0] : ByteStr)) : Nat × ByteStr).2 =
      (fun _ => (0 : Hash)) (storedHashIndex0 ((1, ([0] : ByteStr)) : Nat × ByteStr).1) := by
  refine ⟨by decide, ?_⟩
  exact (entries_authenticated_and_failfast exEnvGood 2 1
    (fun _ => 0) (fun _ => 0) (by decide)
    (fun tiles tdata h => by
      simp only [exEnvGood] at h
      injection h with h2
      rw [← h2]
      simp)
    (fun d entry rh rest h => by
      simp only [exEnvGood] at h
      injection h with h2
      injection h2 with ha hb
      injection hb with hb1 hb2
      exact hb1.symm)
    (fun l hs h => by
      simp only [exEnvGood] at h
      injection h with h2
      exact h2.symm)).1 (1, ([0] : ByteStr)) (by decide)

lemma zip_map_self {α β : Type} (td : α → β) :
    ∀ (l : List α), l.zip (l.map td) = l.map (fun t => (t, td t)) := by
  intro l
  induction l with
  | nil => rfl
  | cons a rest ih => rw [List.map_cons, List.zip_cons_cons, List.map_cons, ih]

lemma filter_ge_ge (s0 s : Nat) (hle : s0 ≤ s) (l : List (Nat × ByteStr)) :
    (l.filter (fun q => decide (s0 ≤ q.1))).filter (fun q => decide (s ≤ q.1)) =
      l.filter (fun q => decide (s ≤ q.1)) := by
  induction l with
  | nil => rfl
  | cons a rest ih =>
    rw [List.filter_cons, List.filter_cons]
    by_cases h0 : s0 ≤ a.1
    · rw [if_pos (by simpa using h0), List.filter_cons]
      by_cases h1 : s ≤ a.1
      · rw [if_pos (by simpa using h1), if_pos (by simpa using h1), ih]
      · rw [if_neg (by simpa using h1), if_neg (by simpa using h1), ih]
    · rw [if_neg (by simpa using h0), if_neg (by simpa using (by omega : ¬s ≤ a.1)), ih]

lemma cutTileLoop_mem_bound (cut : CutFn) (hashes : List Hash)
    (base start tileN : Nat) :
    ∀ (count i : Nat) (data : ByteStr),
      ∀ q ∈ (cutTileLoop cut hashes base start tileN i count data).1,
        i ≤ q.1 ∧ q.1 < i + count := by
  intro count
  induction count with
  | zero =>
    intro i data q hq
    rw [cutTileLoop_zero_eq] at hq
    split at hq <;> simp at hq
  | succ n ih =>
    intro i data q hq
    rw [cutTileLoop_succ_eq] at hq
    by_cases hd : data = []
    · rw [if_pos hd] at hq
      simp at hq
    · rw [if_neg hd] at hq
      cases hc : cut data with
      | error e =>
        rw [hc] at hq
        simp at hq
      | ok out =>
        obtain ⟨entry, rh, rest⟩ := out
        rw [hc] at hq
        simp only [] at hq
        by_cases hrh : rh ≠ hashes.getD (i - base) 0
        · rw [if_pos hrh] at hq
          simp at hq
        · rw [if_neg hrh] at hq
          simp only [] at hq
          by_cases hs : start ≤ i
          · rw [if_pos hs] at hq
            rcases List.mem_cons.mp hq with hq | hq
            · subst hq
              simp only []
              omega
            · have := ih (i + 1) rest q hq
              omega
          · rw [if_neg hs] at hq
            have := ih (i + 1) rest q hq
            omega

lemma processTiles_built_mem (cut : CutFn) (hashes : List Hash) (base top : Nat)
    (td : Tile → ByteStr) :
    ∀ (rem pos start : Nat), TileWidth ∣ pos →
      ∀ q ∈ (processTiles cut hashes base
          ((buildTilesGo top pos rem).zip ((buildTilesGo top pos rem).map td))
          start).1,
        pos ≤ q.1 ∧ q.1 < top := by
  have hW : 0 < TileWidth := tileWidth_pos
  intro rem
  induction rem with
  | zero =>
    intro pos start hdvd q hq
    rw [buildTilesGo_zero] at hq
    simp [processTiles_nil_eq] at hq
  | succ rem ih =>
    intro pos start hdvd q hq
    rw [buildTilesGo_succ] at hq
    by_cases htop : top ≤ pos
    · rw [if_pos htop] at hq
      simp [processTiles_nil_eq] at hq
    · rw [if_neg htop] at hq
      have hm2 : min (pos + TileWidth) top ≤ pos + TileWidth := min_le_left _ _
      have hm3 : min (pos + TileWidth) top ≤ top := min_le_right _ _
      rw [List.map_cons, List.zip_cons_cons, processTiles_cons_eq] at hq
      rw [builtTile_N_toNat, builtTile_W_toNat, Nat.div_mul_cancel hdvd] at hq
      simp only [] at hq
      cases hr : (cutTileLoop cut hashes base start (pos / TileWidth) pos
          (min (pos + TileWidth) top - pos)
          (td { H := (TileHeight : Int), L := -1, N := (pos / TileWidth : Nat),
                W := ((min (pos + TileWidth) top - pos : Nat) : Int) })).2.2 with
      | some e =>
        rw [hr] at hq
        simp only [] at hq
        have := cutTileLoop_mem_bound cut hashes base start (pos / TileWidth)
          (min (pos + TileWidth) top - pos) pos _ q hq
        omega
      | none =>
        rw [hr] at hq
        simp only [] at hq
        rcases List.mem_append.mp hq with hm | hm
        · have := cutTileLoop_mem_bound cut hashes base start (pos / TileWidth)
            (min (pos + TileWidth) top - pos) pos _ q hm
          omega
        · have := ih (pos + TileWidth) (pos + (min (pos + TileWidth) top - pos))
            (Dvd.dvd.add hdvd dvd_rfl) q hm
          omega

lemma buildTilesGo_fuel_mono (top : Nat) :
    ∀ (r r' pos : Nat), top ≤ pos + r * TileWidth → r ≤ r' →
      buildTilesGo top pos r = buildTilesGo top pos r' := by
  have hW : 0 < TileWidth := tileWidth_pos
  intro r
  induction r with
  | zero =>
    intro r' pos hcov hle
    rw [buildTilesGo_zero]
    cases r' with
    | zero => rfl
    | succ r2 =>
      rw [buildTilesGo_succ, if_pos (by omega)]
  | succ r ih =>
    intro r' pos hcov hle
    cases r' with
    | zero => omega
    | succ r2 =>
      have harith : (r + 1) * TileWidth = r * TileWidth + TileWidth :=
        Nat.succ_mul r TileWidth
      rw [buildTilesGo_succ, buildTilesGo_succ]
      by_cases htop : top ≤ pos
      · rw [if_pos htop, if_pos htop]
      · rw [if_neg htop, if_neg htop]
        rw [ih r2 (pos + TileWidth) (by omega) (by omega)]

lemma buildTilesGo_top_congr :
    ∀ (r pos top top' : Nat), pos + r * TileWidth ≤ top → pos + r * TileWidth ≤ top' →
      buildTilesGo top pos r = buildTilesGo top' pos r := by
  have hW : 0 < TileWidth := tileWidth_pos
  intro r
  induction r with
  | zero => intro pos top top' h1 h2; rw [buildTilesGo_zero, buildTilesGo_zero]
  | succ r ih =>
    intro pos top top' h1 h2
    have harith : (r + 1) * TileWidth = r * TileWidth + TileWidth :=
      Nat.succ_mul r TileWidth
    rw [buildTilesGo_succ, buildTilesGo_succ]
    rw [if_neg (by omega), if_neg (by omega)]
    rw [min_eq_left (by omega), min_eq_left (by omega)]
    rw [ih (pos + TileWidth) top top' (by omega) (by omega)]

lemma buildTilesGo_split (E : Nat) :
    ∀ (r1 r2 pos : Nat), pos + r1 * TileWidth ≤ E →
      buildTilesGo E pos (r1 + r2) =
        buildTilesGo (pos + r1 * TileWidth) pos r1 ++
          buildTilesGo E (pos + r1 * TileWidth) r2 := by
  have hW : 0 < TileWidth := tileWidth_pos
  intro r1
  induction r1 with
  | zero =>
    intro r2 pos hle
    rw [show pos + 0 * TileWidth = pos from by omega, buildTilesGo_zero,
      Nat.zero_add, List.nil_append]
  | succ r1 ih =>
    intro r2 pos hle
    have harith : (r1 + 1) * TileWidth = r1 * TileWidth + TileWidth :=
      Nat.succ_mul r1 TileWidth
    rw [show r1 + 1 + r2 = (r1 + r2) + 1 from by omega]
    rw [buildTilesGo_succ, buildTilesGo_succ]
    rw [if_neg (by omega), if_neg (by omega)]
    rw [min_eq_left (by omega), min_eq_left (by omega)]
    rw [List.cons_append]
    rw [ih r2 (pos + TileWidth) (by omega)]
    rw [show pos + TileWidth + r1 * TileWidth = pos + (r1 + 1) * TileWidth from by omega]

lemma processTiles_append_clean (cut : CutFn) (hashes : List Hash) (base : Nat) :
    ∀ (l1 l2 : List (Tile × ByteStr)) (s : Nat),
      (processTiles cut hashes base l1 s).2.2.1 = none →
      processTiles cut hashes base (l1 ++ l2) s =
        ((processTiles cut hashes base l1 s).1 ++
          (processTiles cut hashes base l2
            (processTiles cut hashes base l1 s).2.2.2).1,
         (processTiles cut hashes base l1 s).2.1 ++
          (processTiles cut hashes base l2
            (processTiles cut hashes base l1 s).2.2.2).2.1,
         (processTiles cut hashes base l2
            (processTiles cut hashes base l1 s).2.2.2).2.2.1,
         (processTiles cut hashes base l2
            (processTiles cut hashes base l1 s).2.2.2).2.2.2) := by
  intro l1
  induction l1 with
  | nil =>
    intro l2 s hcl
    rw [List.nil_append, processTiles_nil_eq]
    simp only []
    rw [List.nil_append, List.nil_append]
  | cons td1 rest ih =>
    intro l2 s hcl
    obtain ⟨t, d⟩ := td1
    rw [processTiles_cons_eq] at hcl
    simp only [] at hcl
    rw [List.cons_append, processTiles_cons_eq, processTiles_cons_eq]
    simp only []
    cases hr : (cutTileLoop cut hashes base s t.N.toNat (t.N.toNat * TileWidth)
        t.W.toNat d).2.2 with
    | some e =>
      rw [hr] at hcl
      simp only [] at hcl
      exact absurd hcl (by simp)
    | none =>
      rw [hr] at hcl
      simp only [] at hcl
      simp only []
      rw [ih l2 (t.N.toNat * TileWidth + t.W.toNat) hcl]
      simp only []
      rw [List.append_assoc, List.append_assoc]

lemma processTiles_append_err (cut : CutFn) (hashes : List Hash) (base : Nat) :
    ∀ (l1 l2 : List (Tile × ByteStr)) (s : Nat) (e : EntriesError),
      (processTiles cut hashes base l1 s).2.2.1 = some e →
      processTiles cut hashes base (l1 ++ l2) s =
        processTiles cut hashes base l1 s := by
  intro l1
  induction l1 with
  | nil =>
    intro l2 s e herr
    rw [processTiles_nil_eq] at herr
    simp at herr
  | cons td1 rest ih =>
    intro l2 s e herr
    obtain ⟨t, d⟩ := td1
    rw [processTiles_cons_eq] at herr
    simp only [] at herr
    rw [List.cons_append, processTiles_cons_eq, processTiles_cons_eq]
    simp only []
    cases hr : (cutTileLoop cut hashes base s t.N.toNat (t.N.toNat * TileWidth)
        t.W.toNat d).2.2 with
    | some e2 =>
      rfl
    | none =>
      rw [hr] at herr
      simp only [] at herr
      simp only []
      rw [ih l2 (t.N.toNat * TileWidth + t.W.toNat) e herr]

lemma processTiles_built_fin (cut : CutFn) (hashes : List Hash) (base top : Nat)
    (td : Tile → ByteStr) :
    ∀ (rem pos s : Nat), TileWidth ∣ pos → pos < top →
      (processTiles cut hashes base
        ((buildTilesGo top pos (rem + 1)).zip
          ((buildTilesGo top pos (rem + 1)).map td)) s).2.2.1 = none →
      (processTiles cut hashes base
        ((buildTilesGo top pos (rem + 1)).zip
          ((buildTilesGo top pos (rem + 1)).map td)) s).2.2.2 =
        min (pos + (rem + 1) * TileWidth) top := by
  have hW : 0 < TileWidth := tileWidth_pos
  intro rem
  induction rem with
  | zero =>
    intro pos s hdvd hlt hcl
    have harith : (0 + 1) * TileWidth = TileWidth := by omega
    rw [buildTilesGo_succ, if_neg (by omega)] at hcl ⊢
    rw [buildTilesGo_zero] at hcl ⊢
    rw [List.map_cons, List.zip_cons_cons] at hcl ⊢
    rw [List.map_nil, List.zip_nil_left] at hcl ⊢
    rw [processTiles_cons_eq] at hcl ⊢
    rw [builtTile_N_toNat, builtTile_W_toNat, Nat.div_mul_cancel hdvd] at hcl ⊢
    simp only [] at hcl ⊢
    cases hr : (cutTileLoop cut hashes base s (pos / TileWidth) pos
        (min (pos + TileWidth) top - pos)
        (td { H := (TileHeight : Int), L := -1, N := (pos / TileWidth : Nat),
              W := ((min (pos + TileWidth) top - pos : Nat) : Int) })).2.2 with
    | some e =>
      rw [hr] at hcl
      simp at hcl
    | none =>
      simp only []
      rw [processTiles_nil_eq]
      simp only []
      have hm2 : min (pos + TileWidth) top ≤ pos + TileWidth := min_le_left _ _
      have hm1 : pos < min (pos + TileWidth) top := lt_min (by omega) (by omega)
      rw [show pos + (0 + 1) * TileWidth = pos + TileWidth from by omega]
      omega
  | succ rem ih =>
    intro pos s hdvd hlt hcl
    have harith : (rem + 1 + 1) * TileWidth = (rem + 1) * TileWidth + TileWidth :=
      Nat.succ_mul (rem + 1) TileWidth
    have harith2 : (rem + 1) * TileWidth = rem * TileWidth + TileWidth :=
      Nat.succ_mul rem TileWidth
    rw [buildTilesGo_succ, if_neg (by omega)] at hcl ⊢
    rw [List.map_cons, List.zip_cons_cons] at hcl ⊢
    rw [processTiles_cons_eq] at hcl ⊢
    rw [builtTile_N_toNat, builtTile_W_toNat, Nat.div_mul_cancel hdvd] at hcl ⊢
    simp only [] at hcl ⊢
    cases hr : (cutTileLoop cut hashes base s (pos / TileWidth) pos
        (min (pos + TileWidth) top - pos)
        (td { H := (TileHeight : Int), L := -1, N := (pos / TileWidth : Nat),
              W := ((min (pos + TileWidth) top - pos : Nat) : Int) })).2.2 with
    | some e =>
      rw [hr] at hcl
      simp at hcl
    | none =>
      rw [hr] at hcl
      simp only [] at hcl ⊢
      have hm2 : min (pos + TileWidth) top ≤ pos + TileWidth := min_le_left _ _
      have hm3 : min (pos + TileWidth) top ≤ top := min_le_right _ _
      have hm1 : pos < min (pos + TileWidth) top := lt_min (by omega) (by omega)
      by_cases hc : pos + TileWidth < top
      · have hMW : min (pos + TileWidth) top = pos + TileWidth := min_eq_left (by omega)
        rw [hMW, Nat.add_sub_cancel_left] at hcl ⊢
        rw [ih (pos + TileWidth) (pos + TileWidth) (Dvd.dvd.add hdvd dvd_rfl) hc hcl]
        rw [show pos + TileWidth + (rem + 1) * TileWidth =
          pos + (rem + 1 + 1) * TileWidth from by omega]
      · have hMW : min (pos + TileWidth) top = top := min_eq_right (by omega)
        have hnil : buildTilesGo top (pos + TileWidth) (rem + 1) = [] :=
          (buildTilesGo_nil_iff top (pos + TileWidth) rem).mpr (by omega)
        rw [hnil] at hcl ⊢
        rw [List.map_nil, List.zip_nil_left, processTiles_nil_eq] at hcl ⊢
        simp only []
        rw [hMW]
        omega

lemma processTiles_hashes_congr (cut : CutFn) (top : Nat) (td : Tile → ByteStr) :
    ∀ (rem pos s : Nat) (hashes1 hashes2 : List Hash) (base1 base2 : Nat),
      TileWidth ∣ pos →
      (∀ k, pos ≤ k → k < pos + rem * TileWidth → k < top →
        hashes1.getD (k - base1) 0 = hashes2.getD (k - base2) 0) →
      processTiles cut hashes1 base1
        ((buildTilesGo top pos rem).zip ((buildTilesGo top pos rem).map td)) s =
      processTiles cut hashes2 base2
        ((buildTilesGo top pos rem).zip ((buildTilesGo top pos rem).map td)) s := by
  have hW : 0 < TileWidth := tileWidth_pos
  intro rem
  induction rem with
  | zero =>
    intro pos s h1 h2 b1 b2 hdvd hh
    rw [buildTilesGo_zero]
    rfl
  | succ rem ih =>
    intro pos s h1 h2 b1 b2 hdvd hh
    have harith : (rem + 1) * TileWidth = rem * TileWidth + TileWidth :=
      Nat.succ_mul rem TileWidth
    rw [buildTilesGo_succ]
    by_cases htop : top ≤ pos
    · rw [if_pos htop]
      rfl
    · rw [if_neg htop]
      have hm2 : min (pos + TileWidth) top ≤ pos + TileWidth := min_le_left _ _
      have hm3 : min (pos + TileWidth) top ≤ top := min_le_right _ _
      have hm1 : pos < min (pos + TileWidth) top := lt_min (by omega) (by omega)
      rw [List.map_cons, List.zip_cons_cons, processTiles_cons_eq,
        processTiles_cons_eq]
      rw [builtTile_N_toNat, builtTile_W_toNat, Nat.div_mul_cancel hdvd]
      simp only []
      rw [cutTileLoop_hashes_congr cut (pos / TileWidth)
        (min (pos + TileWidth) top - pos) pos
        (td { H := (TileHeight : Int), L := -1, N := (pos / TileWidth : Nat),
              W := ((min (pos + TileWidth) top - pos : Nat) : Int) })
        s h1 h2 b1 b2 (fun k hk1 hk2 => hh k (by omega) (by omega) (by omega))]
      rw [ih (pos + TileWidth) (pos + (min (pos + TileWidth) top - pos)) h1 h2 b1 b2
        (Dvd.dvd.add hdvd dvd_rfl)
        (fun k hk1 hk2 hk3 => hh k (by omega) (by omega) hk3)]

lemma processTiles_start_filter (cut : CutFn) (hashes : List Hash)
    (base top : Nat) (td : Tile → ByteStr) :
    ∀ (rem pos s s0 : Nat), TileWidth ∣ pos → s0 ≤ s →
      s ≤ min (pos + TileWidth) top →
      ((processTiles cut hashes base
          ((buildTilesGo top pos rem).zip ((buildTilesGo top pos rem).map td))
          s).1 =
        (processTiles cut hashes base
          ((buildTilesGo top pos rem).zip ((buildTilesGo top pos rem).map td))
          s0).1.filter (fun q => decide (s ≤ q.1))) ∧
      ((processTiles cut hashes base
          ((buildTilesGo top pos rem).zip ((buildTilesGo top pos rem).map td))
          s).2.2.1 =
        (processTiles cut hashes base
          ((buildTilesGo top pos rem).zip ((buildTilesGo top pos rem).map td))
          s0).2.2.1) := by
  have hW : 0 < TileWidth := tileWidth_pos
  intro rem pos s s0 hdvd hle hsmin
  cases rem with
  | zero =>
    rw [buildTilesGo_zero]
    exact ⟨rfl, rfl⟩
  | succ rem =>
    rw [buildTilesGo_succ]
    by_cases htop : top ≤ pos
    · rw [if_pos htop]
      exact ⟨rfl, rfl⟩
    · rw [if_neg htop]
      have hm2 : min (pos + TileWidth) top ≤ pos + TileWidth := min_le_left _ _
      have hm3 : min (pos + TileWidth) top ≤ top := min_le_right _ _
      have hm1 : pos < min (pos + TileWidth) top := lt_min (by omega) (by omega)
      rw [List.map_cons, List.zip_cons_cons, processTiles_cons_eq,
        processTiles_cons_eq]
      rw [builtTile_N_toNat, builtTile_W_toNat, Nat.div_mul_cancel hdvd]
      simp only []
      have hres := cutTileLoop_res_start_indep cut hashes base (pos / TileWidth)
        (min (pos + TileWidth) top - pos) pos
        (td { H := (TileHeight : Int), L := -1, N := (pos / TileWidth : Nat),
              W := ((min (pos + TileWidth) top - pos : Nat) : Int) }) s s0
      have hyf : ∀ s1 : Nat, (cutTileLoop cut hashes base s1 (pos / TileWidth) pos
          (min (pos + TileWidth) top - pos)
          (td { H := (TileHeight : Int), L := -1, N := (pos / TileWidth : Nat),
                W := ((min (pos + TileWidth) top - pos : Nat) : Int) })).1 =
          (cutTileLoop cut hashes base 0 (pos / TileWidth) pos
          (min (pos + TileWidth) top - pos)
          (td { H := (TileHeight : Int), L := -1, N := (pos / TileWidth : Nat),
                W := ((min (pos + TileWidth) top - pos : Nat) : Int) })).1.filter
            (fun q => decide (s1 ≤ q.1)) :=
        fun s1 => cutTileLoop_yields_filter cut hashes base (pos / TileWidth)
          (min (pos + TileWidth) top - pos) pos _ s1
      cases hr : (cutTileLoop cut hashes base s0 (pos / TileWidth) pos
          (min (pos + TileWidth) top - pos)
          (td { H := (TileHeight : Int), L := -1, N := (pos / TileWidth : Nat),
                W := ((min (pos + TileWidth) top - pos : Nat) : Int) })).2.2 with
      | some e =>
        rw [hr] at hres
        rw [hres]
        simp only []
        refine ⟨?_, trivial⟩
        rw [hyf s, hyf s0, filter_ge_ge s0 s hle]
      | none =>
        rw [hr] at hres
        rw [hres]
        simp only []
        refine ⟨?_, trivial⟩
        rw [List.filter_append, hyf s, hyf s0, filter_ge_ge s0 s hle]
        have hrest : (processTiles cut hashes base
            ((buildTilesGo top (pos + TileWidth) rem).zip
              ((buildTilesGo top (pos + TileWidth) rem).map td))
            (pos + (min (pos + TileWidth) top - pos))).1.filter
            (fun q => decide (s ≤ q.1)) =
            (processTiles cut hashes base
            ((buildTilesGo top (pos + TileWidth) rem).zip
              ((buildTilesGo top (pos + TileWidth) rem).map td))
            (pos + (min (pos + TileWidth) top - pos))).1 := by
          rw [List.filter_eq_self]
          intro q hq
          have := processTiles_built_mem cut hashes base top td rem
            (pos + TileWidth) (pos + (min (pos + TileWidth) top - pos))
            (Dvd.dvd.add hdvd dvd_rfl) q hq
          simp only [decide_eq_true_eq]
          omega
        rw [hrest]

lemma buildTilesGo_nil_of_le (top pos : Nat) (h : top ≤ pos) :
    ∀ r, buildTilesGo top pos r = [] := by
  intro r
  cases r with
  | zero => rfl
  | succ r2 => rw [buildTilesGo_succ, if_pos h]

lemma zip_map_append (td : Tile → ByteStr) (l1 l2 : List Tile) :
    (l1 ++ l2).zip ((l1 ++ l2).map td) =
      l1.zip (l1.map td) ++ l2.zip (l2.map td) := by
  rw [zip_map_self, zip_map_self, zip_map_self, List.map_append]

lemma emitEnd_eq (treeN s : Nat) : emitEnd treeN s =
    if treeN / TileWidth * TileWidth ≤ s then treeN
    else treeN / TileWidth * TileWidth := rfl

lemma entriesGo_ref (env : EntriesEnv) (treeN : Nat) (td : Tile → ByteStr)
    (ah : Nat → Hash)
    (henvT : env.readTiles = fun ts => Except.ok (ts.map td))
    (henvH : env.readHashes = fun l => Except.ok (l.map fun n => ah n)) :
    ∀ (fuel start : Nat), start ≤ treeN →
      (entriesGo env treeN start fuel).err = none →
      (entriesGo env treeN start fuel).yields =
        (processTiles env.cut
          ((List.range' (start / TileWidth * TileWidth)
            (emitEnd treeN start - start / TileWidth * TileWidth)).map
            (fun k => ah (storedHashIndex0 k)))
          (start / TileWidth * TileWidth)
          ((buildTilesGo (emitEnd treeN start) (start / TileWidth * TileWidth)
              treeN).zip
            ((buildTilesGo (emitEnd treeN start) (start / TileWidth * TileWidth)
              treeN).map td)) start).1 ∧
      (processTiles env.cut
        ((List.range' (start / TileWidth * TileWidth)
          (emitEnd treeN start - start / TileWidth * TileWidth)).map
          (fun k => ah (storedHashIndex0 k)))
        (start / TileWidth * TileWidth)
        ((buildTilesGo (emitEnd treeN start) (start / TileWidth * TileWidth)
            treeN).zip
          ((buildTilesGo (emitEnd treeN start) (start / TileWidth * TileWidth)
            treeN).map td)) start).2.2.1 = none := by
  have hW : 0 < TileWidth := tileWidth_pos
  intro fuel
  induction fuel with
  | zero =>
    intro start hstart h
    rw [entriesGo_zero] at h
    simp at h
  | succ fuel ih =>
    intro start hstart h
    obtain ⟨hA1, hA2, hA3, hA4, hA5, hA6, hA7⟩ := batch_arith treeN start hstart
    have hdvdB : TileWidth ∣ start / TileWidth * TileWidth := dvd_mul_left _ _
    have hTop_emit : (if treeN / TileWidth * TileWidth = start / TileWidth * TileWidth
        then treeN else treeN / TileWidth * TileWidth) = emitEnd treeN start := by
      rw [emitEnd_eq]
      by_cases hc : treeN / TileWidth * TileWidth ≤ start
      · rw [if_pos (hA6.mpr hc), if_pos hc]
      · rw [if_neg (fun h2 => hc (hA6.mp h2)), if_neg hc]
    have hEle : emitEnd treeN start ≤ treeN := by
      rw [emitEnd_eq]
      split
      · exact Nat.le_refl treeN
      · omega
    rw [entriesGo_succ] at h ⊢
    simp only [entriesBatch, buildTiles, henvT, henvH] at h ⊢
    set B := start / TileWidth * TileWidth with hB
    set Q := treeN / TileWidth * TileWidth with hQ
    rw [hTop_emit] at h ⊢
    by_cases htl : buildTilesGo (emitEnd treeN start) B 50 = []
    · rw [if_pos htl] at h ⊢
      simp only [] at h ⊢
      have hEB : emitEnd treeN start ≤ B :=
        (buildTilesGo_nil_iff (emitEnd treeN start) B 49).mp htl
      rw [buildTilesGo_nil_of_le (emitEnd treeN start) B hEB treeN]
      rw [List.map_nil, List.zip_nil_left, processTiles_nil_eq]
      exact ⟨rfl, rfl⟩
    · rw [if_neg htl] at h ⊢
      have hBltE : B < emitEnd treeN start := by
        by_contra hc
        exact htl (buildTilesGo_nil_of_le _ _ (by omega) 50)
      set p := processTiles env.cut
        ((batchIndexes (buildTilesGo (emitEnd treeN start) B 50)).map fun n => ah n)
        B ((buildTilesGo (emitEnd treeN start) B 50).zip
          ((buildTilesGo (emitEnd treeN start) B 50).map td)) start with hp
      have hh : ∀ k, B ≤ k → k < B + 50 * TileWidth → k < emitEnd treeN start →
          ((batchIndexes (buildTilesGo (emitEnd treeN start) B 50)).map
            (fun n => ah n)).getD (k - B) 0 =
          ((List.range' B (emitEnd treeN start - B)).map
            (fun k => ah (storedHashIndex0 k))).getD (k - B) 0 := by
        intro k hk1 hk2 hk3
        rw [batchIndexes_build (emitEnd treeN start) 50 B hdvdB, List.map_map]
        have hkm : k < min (B + 50 * TileWidth) (emitEnd treeN start) :=
          lt_min hk2 hk3
        rw [getD_map_range' ((fun n => ah n) ∘ storedHashIndex0)
          (min (B + 50 * TileWidth) (emitEnd treeN start) - B) B k hk1 (by omega)]
        rw [getD_map_range' (fun j => ah (storedHashIndex0 j))
          (emitEnd treeN start - B) B k hk1 (by omega)]
        rfl
      have hPH : p = processTiles env.cut
          ((List.range' B (emitEnd treeN start - B)).map
            (fun k => ah (storedHashIndex0 k))) B
          ((buildTilesGo (emitEnd treeN start) B 50).zip
            ((buildTilesGo (emitEnd treeN start) B 50).map td)) start := by
        rw [hp]
        exact processTiles_hashes_congr env.cut (emitEnd treeN start) td 50 B start
          _ _ B B hdvdB hh
      cases hpr : p.2.2.1 with
      | some e =>
        rw [hpr] at h
        simp at h
      | none =>
        rw [hpr] at h
        have hfin : p.2.2.2 = min (B + 50 * TileWidth) (emitEnd treeN start) := by
          rw [hp]
          exact processTiles_built_fin env.cut _ B (emitEnd treeN start) td 49 B
            start hdvdB hBltE (hp ▸ hpr)
        by_cases hstop : p.2.2.2 = emitEnd treeN start
        · rw [if_pos hstop] at h ⊢
          simp only []
          have hm2 := min_le_left (B + 50 * TileWidth) (emitEnd treeN start)
          have hm3 := min_le_right (B + 50 * TileWidth) (emitEnd treeN start)
          have hEcov : emitEnd treeN start ≤ B + 50 * TileWidth := by omega
          have hNW : treeN ≤ treeN * TileWidth := Nat.le_mul_of_pos_right treeN hW
          have htiles_eq : buildTilesGo (emitEnd treeN start) B 50 =
              buildTilesGo (emitEnd treeN start) B treeN := by
            by_cases hc : 50 ≤ treeN
            · exact buildTilesGo_fuel_mono (emitEnd treeN start) 50 treeN B
                (by omega) hc
            · exact (buildTilesGo_fuel_mono (emitEnd treeN start) treeN 50 B
                (by omega) (by omega)).symm
          rw [← htiles_eq, ← hPH]
          exact ⟨rfl, hpr⟩
        · rw [if_neg hstop] at h ⊢
          simp only [] at h ⊢
          have hm2 := min_le_left (B + 50 * TileWidth) (emitEnd treeN start)
          have hm3 := min_le_right (B + 50 * TileWidth) (emitEnd treeN start)
          have hnext : p.2.2.2 = B + 50 * TileWidth := by
            rcases min_choice (B + 50 * TileWidth) (emitEnd treeN start) with hc | hc
            · omega
            · omega
          have hltE : B + 50 * TileWidth < emitEnd treeN start := by omega
          have hqs : ¬ Q ≤ start := by
            intro hc
            have hBQ : Q = B := hA6.mpr hc
            have hEtn : emitEnd treeN start = treeN := by
              rw [emitEnd_eq, ← hQ, if_pos hc]
            omega
          have hE : emitEnd treeN start = Q := by
            rw [emitEnd_eq, ← hQ, if_neg hqs]
          have hdvdN : TileWidth ∣ B + 50 * TileWidth :=
            Dvd.dvd.add hdvdB (dvd_mul_left TileWidth 50)
          have hnextle : B + 50 * TileWidth ≤ treeN := by omega
          have hEnext : emitEnd treeN (B + 50 * TileWidth) = Q := by
            rw [emitEnd_eq, ← hQ, if_neg (by omega)]
          have hBnext : (B + 50 * TileWidth) / TileWidth * TileWidth =
              B + 50 * TileWidth := Nat.div_mul_cancel hdvdN
          obtain ⟨ihy, ihr⟩ := ih p.2.2.2 (by omega) h
          rw [hnext] at ihy ihr ⊢
          rw [hBnext, hEnext] at ihy ihr
          rw [hE] at hPH ⊢
          have h50 : 50 ≤ treeN := by omega
          have htsplit : buildTilesGo Q B treeN =
              buildTilesGo (B + 50 * TileWidth) B 50 ++
                buildTilesGo Q (B + 50 * TileWidth) (treeN - 50) := by
            have hs := buildTilesGo_split Q 50 (treeN - 50) B (by omega)
            rw [show 50 + (treeN - 50) = treeN from by omega] at hs
            exact hs
          have hpart1 : buildTilesGo (B + 50 * TileWidth) B 50 =
              buildTilesGo Q B 50 :=
            buildTilesGo_top_congr 50 B (B + 50 * TileWidth) Q (Nat.le_refl _)
              (by omega)
          rw [htsplit, hpart1, zip_map_append]
          have hcl1 : (processTiles env.cut
              ((List.range' B (Q - B)).map (fun k => ah (storedHashIndex0 k))) B
              ((buildTilesGo Q B 50).zip ((buildTilesGo Q B 50).map td))
              start).2.2.1 = none := by
            rw [← hPH]
            exact hpr
          rw [processTiles_append_clean env.cut
            ((List.range' B (Q - B)).map (fun k => ah (storedHashIndex0 k))) B
            ((buildTilesGo Q B 50).zip ((buildTilesGo Q B 50).map td))
            ((buildTilesGo Q (B + 50 * TileWidth) (treeN - 50)).zip
              ((buildTilesGo Q (B + 50 * TileWidth) (treeN - 50)).map td))
            start hcl1]
          simp only []
          have hfin1 : (processTiles env.cut
              ((List.range' B (Q - B)).map (fun k => ah (storedHashIndex0 k))) B
              ((buildTilesGo Q B 50).zip ((buildTilesGo Q B 50).map td))
              start).2.2.2 = B + 50 * TileWidth := by
            rw [← hPH]
            exact hnext
          rw [hfin1]
          have hsub : (treeN - 50) * TileWidth = treeN * TileWidth - 50 * TileWidth :=
            Nat.sub_mul treeN 50 TileWidth
          have hNW : treeN ≤ treeN * TileWidth := Nat.le_mul_of_pos_right treeN hW
          have hfuel2 : buildTilesGo Q (B + 50 * TileWidth) (treeN - 50) =
              buildTilesGo Q (B + 50 * TileWidth) treeN :=
            buildTilesGo_fuel_mono Q (treeN - 50) treeN (B + 50 * TileWidth)
              (by omega) (by omega)
          rw [hfuel2]
          have hPH2 : processTiles env.cut
              ((List.range' B (Q - B)).map (fun k => ah (storedHashIndex0 k))) B
              ((buildTilesGo Q (B + 50 * TileWidth) treeN).zip
                ((buildTilesGo Q (B + 50 * TileWidth) treeN).map td))
              (B + 50 * TileWidth) =
            processTiles env.cut
              ((List.range' (B + 50 * TileWidth) (Q - (B + 50 * TileWidth))).map
                (fun k => ah (storedHashIndex0 k))) (B + 50 * TileWidth)
              ((buildTilesGo Q (B + 50 * TileWidth) treeN).zip
                ((buildTilesGo Q (B + 50 * TileWidth) treeN).map td))
              (B + 50 * TileWidth) := by
            apply processTiles_hashes_congr env.cut Q td treeN (B + 50 * TileWidth)
              (B + 50 * TileWidth) _ _ B (B + 50 * TileWidth) hdvdN
            intro k hk1 hk2 hk3
            rw [getD_map_range' (fun j => ah (storedHashIndex0 j)) (Q - B) B k
              (by omega) (by omega)]
            rw [getD_map_range' (fun j => ah (storedHashIndex0 j))
              (Q - (B + 50 * TileWidth)) (B + 50 * TileWidth) k hk1 (by omega)]
          rw [hPH2, ← ihy, ← hPH]
          exact ⟨rfl, ihr⟩

lemma emitEnd_resume_eq (treeN start s : Nat)
    (hss : start ≤ s)
    (hcase : s < emitEnd treeN start ∨ emitEnd treeN start = treeN) :
    emitEnd treeN s = emitEnd treeN start := by
  rw [emitEnd_eq treeN start] at hcase
  rw [emitEnd_eq treeN s, emitEnd_eq treeN start]
  by_cases hc : treeN / TileWidth * TileWidth ≤ start
  · rw [if_pos hc] at hcase ⊢
    rw [if_pos (le_trans hc hss)]
  · rw [if_neg hc] at hcase ⊢
    by_cases hc2 : treeN / TileWidth * TileWidth ≤ s
    · rw [if_pos hc2]
      rcases hcase with h | h
      · omega
      · omega
    · rw [if_neg hc2]

/-- C3 (amended): for a deterministic environment (fixed per-tile data and
authenticated hashes), two failure-free runs over the same tree agree after
the split point: resuming at `s` with `start ≤ s` yields exactly the entries
the original run yields from index `s` onward — provided `s` is strictly
below the original run's emit bound, or that bound is the full tree size.
(At `s = emitEnd < treeN` the resumed run enters the trailing partial tile
and yields entries the original run never emitted.) -/
theorem entries_resume_amended (env : EntriesEnv) (treeN start s : Nat)
    (td : Tile → ByteStr) (ah : Nat → Hash)
    (henvT : env.readTiles = fun ts => Except.ok (ts.map td))
    (henvH : env.readHashes = fun l => Except.ok (l.map fun n => ah n))
    (hstart : start ≤ treeN) (hss : start ≤ s) (hsN : s ≤ treeN)
    (hcase : s < emitEnd treeN start ∨ emitEnd treeN start = treeN)
    (hclean1 : (entriesRun env treeN start).err = none)
    (hclean2 : (entriesRun env treeN s).err = none) :
    (entriesRun env treeN s).yields =
      (entriesRun env treeN start).yields.filter (fun q => decide (s ≤ q.1)) := by
  have hW : 0 < TileWidth := tileWidth_pos
  obtain ⟨hA1, hA2, hA3, hA4, hA5, hA6, hA7⟩ := batch_arith treeN start hstart
  obtain ⟨hS1, hS2, hS3, hS4, hS5, hS6, hS7⟩ := batch_arith treeN s hsN
  have hdvdB : TileWidth ∣ start / TileWidth * TileWidth := dvd_mul_left _ _
  have hdvdBs : TileWidth ∣ s / TileWidth * TileWidth := dvd_mul_left _ _
  have hEle : emitEnd treeN start ≤ treeN := by
    rw [emitEnd_eq]
    split
    · exact Nat.le_refl treeN
    · omega
  have hsE : s ≤ emitEnd treeN start := by
    rcases hcase with h | h
    · omega
    · omega
  have hmono : start / TileWidth * TileWidth ≤ s / TileWidth * TileWidth :=
    Nat.mul_le_mul (Nat.div_le_div_right hss) (Nat.le_refl TileWidth)
  have hBsE : s / TileWidth * TileWidth ≤ emitEnd treeN start := by omega
  have hEs : emitEnd treeN s = emitEnd treeN start :=
    emitEnd_resume_eq treeN start s hss hcase
  unfold entriesRun at hclean1 hclean2 ⊢
  obtain ⟨hy1, hr1⟩ := entriesGo_ref env treeN td ah henvT henvH (treeN + 1)
    start hstart hclean1
  obtain ⟨hy2, hr2⟩ := entriesGo_ref env treeN td ah henvT henvH (treeN + 1)
    s hsN hclean2
  rw [hEs] at hy2 hr2
  rw [hy1, hy2]
  set E := emitEnd treeN start with hEdef
  set B0 := start / TileWidth * TileWidth with hB0
  set Bs := s / TileWidth * TileWidth with hBsdef
  clear_value E B0 Bs
  by_cases hBB : Bs = B0
  · rw [hBB]
    exact (processTiles_start_filter env.cut
      ((List.range' B0 (E - B0)).map (fun k => ah (storedHashIndex0 k)))
      B0 E td treeN B0 s start hdvdB hss (le_min (by omega) (by omega))).1
  · have hBlt : B0 < Bs := by omega
    have hdvdD : TileWidth ∣ Bs - B0 := Nat.dvd_sub' hdvdBs hdvdB
    have hr1W : (Bs - B0) / TileWidth * TileWidth = Bs - B0 :=
      Nat.div_mul_cancel hdvdD
    set r1 := (Bs - B0) / TileWidth with hr1def
    clear_value r1
    have hr1pos : 1 ≤ r1 := by
      by_contra hc
      have : r1 = 0 := by omega
      rw [this] at hr1W
      omega
    have hNW : treeN ≤ treeN * TileWidth := Nat.le_mul_of_pos_right treeN hW
    have hr1leW : r1 ≤ r1 * TileWidth := Nat.le_mul_of_pos_right r1 hW
    have hr1le : r1 ≤ treeN := by omega
    have hsub : (treeN - r1) * TileWidth = treeN * TileWidth - r1 * TileWidth :=
      Nat.sub_mul treeN r1 TileWidth
    have hPHs : processTiles env.cut
        ((List.range' Bs (E - Bs)).map (fun k => ah (storedHashIndex0 k))) Bs
        ((buildTilesGo E Bs treeN).zip ((buildTilesGo E Bs treeN).map td)) s =
      processTiles env.cut
        ((List.range' B0 (E - B0)).map (fun k => ah (storedHashIndex0 k))) B0
        ((buildTilesGo E Bs treeN).zip ((buildTilesGo E Bs treeN).map td)) s := by
      apply processTiles_hashes_congr env.cut E td treeN Bs s _ _ Bs B0 hdvdBs
      intro k hk1 hk2 hk3
      rw [getD_map_range' (fun j => ah (storedHashIndex0 j)) (E - Bs) Bs k hk1
        (by omega)]
      rw [getD_map_range' (fun j => ah (storedHashIndex0 j)) (E - B0) B0 k
        (by omega) (by omega)]
    rw [hPHs]
    have htsplit : buildTilesGo E B0 treeN =
        buildTilesGo Bs B0 r1 ++ buildTilesGo E Bs (treeN - r1) := by
      have hs2 := buildTilesGo_split E r1 (treeN - r1) B0 (by omega)
      rw [show r1 + (treeN - r1) = treeN from by omega] at hs2
      rw [show B0 + r1 * TileWidth = Bs from by omega] at hs2
      exact hs2
    rw [htsplit, zip_map_append] at hr1 ⊢
    have hcl1 : (processTiles env.cut
        ((List.range' B0 (E - B0)).map (fun k => ah (storedHashIndex0 k))) B0
        ((buildTilesGo Bs B0 r1).zip ((buildTilesGo Bs B0 r1).map td))
        start).2.2.1 = none := by
      cases hres1 : (processTiles env.cut
          ((List.range' B0 (E - B0)).map (fun k => ah (storedHashIndex0 k))) B0
          ((buildTilesGo Bs B0 r1).zip ((buildTilesGo Bs B0 r1).map td))
          start).2.2.1 with
      | none => rfl
      | some e =>
        exfalso
        rw [processTiles_append_err env.cut
          ((List.range' B0 (E - B0)).map (fun k => ah (storedHashIndex0 k))) B0
          ((buildTilesGo Bs B0 r1).zip ((buildTilesGo Bs B0 r1).map td))
          ((buildTilesGo E Bs (treeN - r1)).zip
            ((buildTilesGo E Bs (treeN - r1)).map td))
          start e hres1] at hr1
        rw [hres1] at hr1
        simp at hr1
    rw [processTiles_append_clean env.cut
      ((List.range' B0 (E - B0)).map (fun k => ah (storedHashIndex0 k))) B0
      ((buildTilesGo Bs B0 r1).zip ((buildTilesGo Bs B0 r1).map td))
      ((buildTilesGo E Bs (treeN - r1)).zip
        ((buildTilesGo E Bs (treeN - r1)).map td))
      start hcl1] at hr1 ⊢
    simp only [] at hr1 ⊢
    have hfin1 : (processTiles env.cut
        ((List.range' B0 (E - B0)).map (fun k => ah (storedHashIndex0 k))) B0
        ((buildTilesGo Bs B0 r1).zip ((buildTilesGo Bs B0 r1).map td))
        start).2.2.2 = Bs := by
      have hb := processTiles_built_fin env.cut
        ((List.range' B0 (E - B0)).map (fun k => ah (storedHashIndex0 k))) B0 Bs
        td (r1 - 1) B0 start hdvdB hBlt
        (by rw [show r1 - 1 + 1 = r1 from by omega]; exact hcl1)
      rw [show r1 - 1 + 1 = r1 from by omega] at hb
      rw [hb, show B0 + r1 * TileWidth = Bs from by omega, min_self]
    rw [hfin1] at hr1 ⊢
    have hfuel2 : buildTilesGo E Bs (treeN - r1) = buildTilesGo E Bs treeN :=
      buildTilesGo_fuel_mono E (treeN - r1) treeN Bs (by omega) (by omega)
    rw [hfuel2] at hr1 ⊢
    rw [List.filter_append]
    have hnil : (processTiles env.cut
        ((List.range' B0 (E - B0)).map (fun k => ah (storedHashIndex0 k))) B0
        ((buildTilesGo Bs B0 r1).zip ((buildTilesGo Bs B0 r1).map td))
        start).1.filter (fun q => decide (s ≤ q.1)) = [] := by
      rw [List.filter_eq_nil_iff]
      intro q hq
      have := processTiles_built_mem env.cut
        ((List.range' B0 (E - B0)).map (fun k => ah (storedHashIndex0 k))) B0 Bs
        td r1 B0 start hdvdB q hq
      simp only [decide_eq_true_eq]
      omega
    rw [hnil, List.nil_append]
    exact (processTiles_start_filter env.cut
      ((List.range' B0 (E - B0)).map (fun k => ah (storedHashIndex0 k)))
      B0 E td treeN Bs s Bs hdvdBs (by omega) (le_min (by omega) (by omega))).1

/-- Witness for C3 (amended): resuming the concrete 2-entry run at `s = 1`
yields exactly the original run's entries from index 1 on. -/
theorem entries_resume_amended_witness :
    (entriesRun exEnvGood 2 1).yields =
      (entriesRun exEnvGood 2 0).yields.filter (fun q => decide (1 ≤ q.1)) := by
  exact entries_resume_amended exEnvGood 2 0 1 exTileData (fun _ => 0) rfl rfl
    (by decide) (by decide) (by decide) (Or.inl (by decide)) (by decide) (by decide)

set_option maxRecDepth 10000 in
/-- Counterexample to C3 as stated: at `treeN = 257` the split point
`s = 256 = emitEnd 257 0` is allowed by the claim (`start ≤ s ≤ emitEnd`),
both runs are failure-free, but the resumed run enters the trailing partial
tile and yields entry 256, which the original run never emitted — the two
runs do not agree on indices `≥ s`. -/
theorem entries_resume_counterexample :
    (0 : Nat) ≤ 256 ∧ 256 ≤ emitEnd 257 0 ∧
    (entriesRun exEnvGood 257 0).err = none ∧
    (entriesRun exEnvGood 257 256).err = none ∧
    (entriesRun exEnvGood 257 256).yields ≠
      (entriesRun exEnvGood 257 0).yields.filter (fun q => decide (256 ≤ q.1)) := by
  refine ⟨by decide, by decide, by decide, by decide, by decide⟩

end Torchwood
